import Mathlib

/-!
Verification development for the m1m-guardian detection-and-enforcement engine.

The Lean definitions below are a shallow embedding of the Python sources:

* `m1m_guardian/store.py`    — Redis-backed concurrency-limit tracker (`Store.add_ip`,
  `_safe_execute`), modelled over an explicit sorted-set value (`ZSet`).
* `m1m_guardian/firewall.py` — IP validation guards, the per-node pending-ban slot
  (`schedule_ban`), the batching worker drain (`_worker_loop` / `dict.popitem`),
  failed-batch reinsertion (`_apply_batch`), and the `ensure_rule` cache.
* `m1m_guardian/nodes.py`    — host-key rotation handling (`_diagnose_connectivity`,
  `_hostkey_cleared`, the stream-side mismatch handler).
* `m1m_guardian/parser.py`   — the accepted-connection log-line parser (`RX`,
  `parse_line`, `inbound_from_br`).
* `m1m_guardian/watcher.py`  — the per-eviction enforcement fan-out
  (`NodeWatcher.run`).

Remote shell executions, Redis round-trips and wall-clock time are represented
explicitly: effects become values in result tuples, fallible operations take an
outcome parameter, and `time.time()` / `loop.time()` become `Nat` arguments that
the theorems constrain (e.g. strictly increasing across calls).
-/

/-! ## IP address validation

`firewall.py` validates every address with `ipaddress.ip_address(ip)` before any
remote action, and classifies the family with `_is_ipv6`.  The functions below
embed the syntactic acceptance of CPython's `ipaddress` module (3.9.5+ octet
rules) on ASCII input: `IPv4Address._ip_int_from_string` /
`IPv6Address._ip_int_from_string` together with the scope-id split.
Strings are processed as their underlying character lists.
-/

/-- Split a character list on a separator, mirroring Python `str.split(sep)`
(an empty input yields one empty field, separators at the ends yield empty
fields). -/
def splitSep (sep : Char) : List Char → List (List Char)
  | [] => [[]]
  | c :: rest =>
    if c = sep then [] :: splitSep sep rest
    else
      match splitSep sep rest with
      | [] => [[c]]
      | p :: ps => (c :: p) :: ps

def isDigitChar (c : Char) : Bool := '0' ≤ c && c ≤ '9'

def isHexChar (c : Char) : Bool :=
  isDigitChar c || ('a' ≤ c && c ≤ 'f') || ('A' ≤ c && c ≤ 'F')

def digitVal (c : Char) : Nat := c.toNat - '0'.toNat

/-- Decimal value of a digit string. -/
def decValue (l : List Char) : Nat := l.foldl (fun a c => a * 10 + digitVal c) 0

/-- `IPv4Address._parse_octet`: non-empty, decimal digits only, at most three
characters, no leading zero (CPython ≥ 3.9.5), value at most 255. -/
def octetOk (l : List Char) : Bool :=
  !l.isEmpty && l.length ≤ 3 && l.all isDigitChar &&
    !(decide (1 < l.length) && l.headD ' ' == '0') && decValue l ≤ 255

/-- `IPv4Address._ip_int_from_string`: exactly four octets separated by dots. -/
def ipv4Ok (l : List Char) : Bool :=
  let parts := splitSep '.' l
  parts.length == 4 && parts.all octetOk

/-- `IPv6Address._parse_hextet`: hex digits only, between one and four of them. -/
def hextetOk (l : List Char) : Bool :=
  !l.isEmpty && l.length ≤ 4 && l.all isHexChar

/-- Core of `IPv6Address._ip_int_from_string` after the colon split and the
embedded-IPv4 expansion: between 3 and 9 parts, at most one empty part in the
middle (the `::` gap), empty end parts only adjacent to the gap, at least one
group actually skipped, and every counted part a valid hextet. -/
def ipv6Parts (parts : List (List Char)) : Bool :=
  if parts.length < 3 then false
  else if 9 < parts.length then false
  else
    let middle := (parts.drop 1).dropLast
    let emptyCount := middle.countP (fun p => p.isEmpty)
    if 2 ≤ emptyCount then false
    else if emptyCount == 1 then
      let skipIdx := 1 + middle.findIdx (fun p => p.isEmpty)
      let headEmpty := (parts.headD []).isEmpty
      let lastEmpty := (parts.getLastD []).isEmpty
      let partsHi := if headEmpty then skipIdx - 1 else skipIdx
      let partsLo0 := parts.length - skipIdx - 1
      let partsLo := if lastEmpty then partsLo0 - 1 else partsLo0
      if headEmpty && partsHi != 0 then false
      else if lastEmpty && partsLo != 0 then false
      else if 8 - (partsHi + partsLo) < 1 then false
      else (parts.take partsHi).all hextetOk &&
        (parts.drop (parts.length - partsLo)).all hextetOk
    else
      parts.length == 8 && !(parts.headD []).isEmpty &&
        !(parts.getLastD []).isEmpty && parts.all hextetOk

/-- `IPv6Address._ip_int_from_string`: colon split, then if the last part
contains a dot it must parse as IPv4 and stands for two hextets. -/
def ipv6Addr (l : List Char) : Bool :=
  let parts := splitSep ':' l
  if parts.length < 3 then false
  else
    match parts.getLast? with
    | none => false
    | some last =>
      if last.contains '.' then
        ipv4Ok last && ipv6Parts (parts.dropLast ++ [['0'], ['0']])
      else ipv6Parts parts

/-- `IPv6Address` construction: split the optional `%scope_id` (non-empty, no
further `%`) and validate the address part. -/
def ipv6Ok (l : List Char) : Bool :=
  if l.contains '%' then
    let addr := l.takeWhile (fun c => c ≠ '%')
    let scope := (l.dropWhile (fun c => c ≠ '%')).tail
    if scope.isEmpty || scope.contains '%' then false else ipv6Addr addr
  else ipv6Addr l

/-- `ipaddress.ip_address(s)` succeeds: IPv4 is tried first, then IPv6. -/
def isValidIP (s : String) : Bool := ipv4Ok s.data || ipv6Ok s.data

/-- `firewall._is_ipv6`: `ip_address(ip).version == 6`, with a parse failure
mapped to `False` by the `except ValueError` clause. -/
def isIpv6Guard (ip : String) : Bool :=
  if ipv4Ok ip.data then false else ipv6Ok ip.data

/-! ## Session-state store (`store.py`)

`Store.add_ip` keeps, per `(inbound, email)` key `a:inbound:email`, a Redis
sorted set whose members are addresses and whose scores are the
`time.time()` values of their last accepted connection.  One such value is
modelled as an association list of `(member, score)` pairs in insertion order;
the Redis commands used by `add_ip` (`ZADD`, `ZCARD`, `ZRANGE 0 (k-1)`,
`ZREM`, `ZSCORE`) are defined over it.  `time.time()` is modelled as a `Nat`
argument; the theorems assume it strictly increases across calls, which the
run model `runAdds` realises by using the call index as the clock. -/

abbrev ZSet := List (String × Nat)

/-- `ZSCORE key m`. -/
def zscore (s : ZSet) (m : String) : Option Nat :=
  (s.find? (fun p => p.1 == m)).map (fun p => p.2)

/-- `ZADD key {m: t}`: update the score of an existing member in place,
otherwise append the new member. -/
def zadd (s : ZSet) (m : String) (t : Nat) : ZSet :=
  if s.any (fun p => p.1 == m) then
    s.map (fun p => if p.1 == m then (m, t) else p)
  else s ++ [(m, t)]

/-- `ZCARD key`. -/
def zcard (s : ZSet) : Nat := s.length

/-- Redis sorted-set ordering: ascending score, ties broken by member. -/
def zleProp (a b : String × Nat) : Prop := a.2 < b.2 ∨ (a.2 = b.2 ∧ a.1 ≤ b.1)

instance : DecidableRel zleProp := fun a b => by
  unfold zleProp; infer_instance

instance : IsTotal (String × Nat) zleProp where
  total a b := by
    unfold zleProp
    rcases Nat.lt_trichotomy a.2 b.2 with h | h | h
    · exact Or.inl (Or.inl h)
    · rcases le_total a.1 b.1 with h1 | h1
      · exact Or.inl (Or.inr ⟨h, h1⟩)
      · exact Or.inr (Or.inr ⟨h.symm, h1⟩)
    · exact Or.inr (Or.inl h)

instance : IsTrans (String × Nat) zleProp where
  trans a b c hab hbc := by
    unfold zleProp at hab hbc ⊢
    rcases hab with h | ⟨he, h1⟩
    · rcases hbc with h2 | ⟨he2, _⟩
      · exact Or.inl (h.trans h2)
      · exact Or.inl (he2 ▸ h)
    · rcases hbc with h2 | ⟨he2, h2⟩
      · exact Or.inl (he ▸ h2)
      · exact Or.inr ⟨he.trans he2, h1.trans h2⟩

/-- `ZRANGE key 0 (k-1)`: the `k` lowest-scored members, ascending. -/
def zrangeMembers (s : ZSet) (k : Nat) : List String :=
  ((s.insertionSort zleProp).take k).map (fun p => p.1)

/-- `ZREM key ms...`: drop every entry whose member is listed. -/
def zrem (s : ZSet) (ms : List String) : ZSet :=
  s.filter (fun p => !(ms.contains p.1))

/-- `Store.add_ip` success path (store.py:49-71): `ZADD` the address at the
current time, read `ZCARD`; when the count exceeds the limit, `ZRANGE` the
oldest `count - limit` members and `ZREM` them, returning them as evicted.
The boolean mirrors `count > 0 and not evicted and zscore(...) is not None`.
Returns `((evicted, flag), new slot value)`. -/
def add_ip (s : ZSet) (ip : String) (limit : Nat) (now : Nat) :
    (List String × Bool) × ZSet :=
  let s1 := zadd s ip now
  let count := zcard s1
  let res : List String × ZSet :=
    if limit < count then
      let k := count - limit
      let old := zrangeMembers s1 k
      if old.isEmpty then ([], s1) else (old, zrem s1 old)
    else ([], s1)
  ((res.1, decide (0 < count) && res.1.isEmpty && (zscore res.2 ip).isSome), res.2)

/-- Run a sequence of `add_ip` calls on one slot, clock = call index
(strictly increasing `time.time()`).  Returns the final slot value and the
per-call evicted lists. -/
def runAdds (limit : Nat) : List String → ZSet → Nat → ZSet × List (List String)
  | [], s, _ => (s, [])
  | ip :: rest, s, t =>
    let r := add_ip s ip limit t
    let tail := runAdds limit rest r.2 (t + 1)
    (tail.1, r.1.1 :: tail.2)

/-- Members (addresses) currently in a slot. -/
def members (s : ZSet) : List String := s.map (fun p => p.1)

/-- Score of a member (0 when absent; the theorems only use it on members). -/
def scoreIn (s : ZSet) (x : String) : Nat := (zscore s x).getD 0

/-- How many entries of `s` are strictly newer than member `x`. -/
def newerCount (s : ZSet) (x : String) : Nat :=
  (s.filter (fun p => scoreIn s x < p.2)).length

/-- Number of distinct addresses in an observation sequence. -/
def countDistinct (l : List String) : Nat := l.toFinset.card

/-- Slot well-formedness at clock `t`: member names pairwise distinct, scores
pairwise distinct, all scores in the past. -/
def GoodZ (s : ZSet) (t : Nat) : Prop :=
  (members s).Nodup ∧ (s.map (fun p => p.2)).Nodup ∧ ∀ p ∈ s, p.2 < t

/-- Slot value after running the observation sequence `obs` from an empty
slot, clock = call index. -/
def slotAfter (limit : Nat) (obs : List String) : ZSet :=
  (runAdds limit obs [] 0).1

/-- Result pair of the `add_ip` call that follows the run on `pre`. -/
def callResult (limit : Nat) (pre : List String) (ip : String) :
    (List String × Bool) × ZSet :=
  add_ip (slotAfter limit pre) ip limit pre.length

/-! ### Store failure path (`store.py:72-77`, `_safe_execute`) -/

/-- The exception classes `Store` distinguishes. -/
inductive RedisFailure
  | timeout
  | connError
  | other
deriving DecidableEq, Repr

/-- Log events emitted by the store client. -/
inductive StoreLogEvent
  | addIpWarn
  | safeExecError
deriving DecidableEq, Repr

/-- `Store.add_ip` including its own `except` clauses (store.py:72-77): any
timeout or other exception yields `([], False)` and an *unconditional*
`log.warning` (one per failing call).  The Redis value is left untouched in
the model; the claims only concern the returned pair and the logging. -/
def add_ip_run (outcome : Option RedisFailure) (s : ZSet) (ip : String)
    (limit : Nat) (now : Nat) :
    (List String × Bool) × ZSet × List StoreLogEvent :=
  match outcome with
  | some _ => (([], false), s, [StoreLogEvent.addIpWarn])
  | none =>
    let r := add_ip s ip limit now
    (r.1, r.2, [])

/-- Rate-limiter state of `Store._safe_execute`: `_last_error_log`
(initially `0.0`), in seconds. -/
structure StoreLogState where
  lastErrorLog : Nat
deriving DecidableEq, Repr

/-- `Store._safe_execute` (store.py:22-43): on success return the operation's
value; on timeout / connection error / other exception return the default and
log an error only when more than 60 seconds have passed since the last
logged error (updating `_last_error_log` when logging). -/
def safe_execute {α : Type} (st : StoreLogState) (now : Nat)
    (outcome : Except RedisFailure α) (dflt : α) :
    α × StoreLogState × List StoreLogEvent :=
  match outcome with
  | Except.ok v => (v, st, [])
  | Except.error _ =>
    if 60 < now - st.lastErrorLog then
      (dflt, { lastErrorLog := now }, [StoreLogEvent.safeExecError])
    else (dflt, st, [])

/-! ## Firewall enforcer (`firewall.py`)

Single-shot operations (`ban_ip`, `is_banned`, `unban_ip`) each begin with
`ipaddress.ip_address(ip)` and return `False` on `ValueError` before building
any remote command; the remote command they would run is returned as an
explicit effect list.  The per-node batching worker state (`_WorkerState`)
is modelled with the pending dict as an insertion-ordered association list,
matching Python-3.7+ `dict` semantics (`popitem` removes the most recently
inserted binding). -/

/-- Remote commands the single-shot firewall operations submit over SSH. -/
inductive FwRemoteOp
  | banCmd (isV6 : Bool) (ip : String) (seconds : Int)
  | testCmd (isV6 : Bool) (ip : String)
  | unbanCmd (isV6 : Bool) (ip : String)
deriving DecidableEq, Repr

/-- `firewall.ban_ip` (420-492): validate, then run one remote script that
adds the address to the family's timed set, flushes conntrack and performs a
membership test; `remoteConfirm` models the absence of `__TEST_FAIL__` in the
output.  Invalid addresses return `False` with no remote command. -/
def ban_ip (ip : String) (seconds : Int) (remoteConfirm : Bool) :
    Bool × List FwRemoteOp :=
  if isValidIP ip then
    (remoteConfirm, [FwRemoteOp.banCmd (isIpv6Guard ip) ip seconds])
  else (false, [])

/-- `firewall.is_banned` (494-517): validate, then run the remote membership
test and report `rc == 0`. -/
def is_banned (ip : String) (remoteRc : Int) : Bool × List FwRemoteOp :=
  if isValidIP ip then
    (remoteRc == 0, [FwRemoteOp.testCmd (isIpv6Guard ip) ip])
  else (false, [])

/-- `firewall.unban_ip` (519-548): validate, then best-effort remove from the
set and flush conntrack; returns `True` unless spawning the remote process
throws. -/
def unban_ip (ip : String) (spawnOk : Bool) : Bool × List FwRemoteOp :=
  if isValidIP ip then (spawnOk, [FwRemoteOp.unbanCmd (isIpv6Guard ip) ip])
  else (false, [])

/-- `firewall._BanItem`: the constructor clamps the TTL with
`int(max(1, ttl))`; `enq` is the enqueue time. -/
structure BanItem where
  ip : String
  ttl : Int
  enq : Nat
deriving DecidableEq, Repr

def mkBanItem (ip : String) (ttl : Int) (now : Nat) : BanItem :=
  { ip := ip, ttl := max 1 ttl, enq := now }

/-- The pending dict of `_WorkerState`, in insertion order. -/
abbrev Pending := List (String × BanItem)

/-- `dict.get`. -/
def pendingLookup (pend : Pending) (ip : String) : Option BanItem :=
  (pend.find? (fun p => p.1 == ip)).map (fun p => p.2)

/-- `dict.__setitem__`: update in place, or append a new binding. -/
def pendingSet (pend : Pending) (ip : String) (it : BanItem) : Pending :=
  if pend.any (fun p => p.1 == ip) then
    pend.map (fun p => if p.1 == ip then (ip, it) else p)
  else pend ++ [(ip, it)]

/-- Backpressure cap (firewall.py:7). -/
def MAX_PENDING : Nat := 20000

/-- Worker batch size (firewall.py:619). -/
def MAX_BATCH : Nat := 500

/-- The mutable fields of `_WorkerState` the claims concern: the pending
dict and `last_report` (shared by the overflow warning limiter and the
30-second stats report; `0.0` initially). -/
structure WorkerState where
  pending : Pending
  lastReport : Nat
deriving Repr

/-- Side effects of `schedule_ban` other than the slot mutation. -/
inductive FwEvent
  | ensureAttempt
  | overflowWarn
  | wake
deriving DecidableEq, Repr

/-- `firewall.schedule_ban` (582-615): validate the address (returning
`False` with no effect on failure); auto-ensure rules when the node is not
cached; then under the worker lock either raise the TTL of an
already-pending entry to the maximum, refuse a new address when the slot
holds `MAX_PENDING` entries (with a warning rate-limited to one per 5
seconds via `last_report`), or append the new entry; finally wake the
worker. -/
def schedule_ban (st : WorkerState) (ensured : Bool) (ip : String)
    (seconds : Int) (now : Nat) : Bool × WorkerState × List FwEvent :=
  if isValidIP ip then
    let pre : List FwEvent := if ensured then [] else [FwEvent.ensureAttempt]
    match pendingLookup st.pending ip with
    | some cur =>
      let cur2 := if cur.ttl < seconds then { cur with ttl := seconds } else cur
      (true, { st with pending := pendingSet st.pending ip cur2 },
        pre ++ [FwEvent.wake])
    | none =>
      if MAX_PENDING ≤ st.pending.length then
        if st.lastReport == 0 || 5 < now - st.lastReport then
          (false, { st with lastReport := now }, pre ++ [FwEvent.overflowWarn])
        else (false, st, pre)
      else
        (true,
          { st with pending := st.pending ++ [(ip, mkBanItem ip seconds now)] },
          pre ++ [FwEvent.wake])
  else (false, st, [])

/-- Python `dict.popitem`: remove and return the most recently inserted
binding (LIFO). -/
def popitem (pend : Pending) : Option ((String × BanItem) × Pending) :=
  match pend.getLast? with
  | none => none
  | some p => some (p, pend.dropLast)

/-- The drain loop of `_worker_loop` (629-635):
`for _ in range(n): ip, itm = pending.popitem(); items.append(itm)`. -/
def drainN : Nat → Pending → List BanItem × Pending
  | 0, pend => ([], pend)
  | n + 1, pend =>
    match popitem pend with
    | none => ([], pend)
    | some (p, rest) =>
      let r := drainN n rest
      (p.2 :: r.1, r.2)

/-- One drain of the worker loop: pop `min(MAX_BATCH, len(pending))`
entries. -/
def drainBatch (pend : Pending) : List BanItem × Pending :=
  drainN (min MAX_BATCH pend.length) pend

/-- `_apply_batch` failure path (736-742): on a non-zero batch exit code the
drained items are re-inserted into the pending dict, keeping the maximum TTL
when the address is meanwhile pending again.  There is no cap check on this
path. -/
def reinsert (pend : Pending) (items : List BanItem) : Pending :=
  items.foldl
    (fun acc it =>
      match pendingLookup acc it.ip with
      | some cur => if cur.ttl < it.ttl then pendingSet acc it.ip it else acc
      | none => pendingSet acc it.ip it)
    pend

/-! ## Rule ensurance (`firewall.ensure_rule`, 40-249)

The remote side is modelled as a set of installed fixtures (timed sets and
rules, identified by label) plus the facts the scripts branch on: the
detected backend, whether the container runtime's `DOCKER-USER` chain
exists, and whether the `ipset` tool is usable.  Every install in the ensure
script is guarded by a presence check (`list || create`, `-C || -I`,
`grep -q || insert`), which `addFixture` captures. -/

inductive FwBackend
  | iptables
  | nft
  | noBackend
deriving DecidableEq, Repr

structure RemoteFw where
  backend : FwBackend
  hasDockerUser : Bool
  ipsetAvailable : Bool
  fixtures : List String
deriving DecidableEq, Repr

/-- Guarded install: `check-if-present || create`. -/
def addFixture (st : RemoteFw) (f : String) : RemoteFw :=
  if st.fixtures.contains f then st
  else { st with fixtures := st.fixtures ++ [f] }

def addFixtures (st : RemoteFw) (fs : List String) : RemoteFw :=
  fs.foldl addFixture st

/-- The three v4 rules the iptables branch installs in one chain. -/
def iptChainRules4 (chain : String) : List String :=
  ["ipt4:" ++ chain ++ ":tcp-reject", "ipt4:" ++ chain ++ ":udp-reject",
    "ipt4:" ++ chain ++ ":drop"]

def iptChainRules6 (chain : String) : List String :=
  ["ipt6:" ++ chain ++ ":tcp-reject", "ipt6:" ++ chain ++ ":udp-reject",
    "ipt6:" ++ chain ++ ":drop"]

/-- Fixtures installed by the iptables branch of the ensure script: the two
timed sets, then the rules in `DOCKER-USER` when present, otherwise in both
`INPUT` and `FORWARD`. -/
def ensureFixturesIpt (docker : Bool) : List String :=
  ["set:m1m_guardian", "set:m1m_guardian6"] ++
    (if docker then iptChainRules4 "DOCKER-USER" ++ iptChainRules6 "DOCKER-USER"
     else
       iptChainRules4 "INPUT" ++ iptChainRules4 "FORWARD" ++
         iptChainRules6 "INPUT" ++ iptChainRules6 "FORWARD")

def nftChainRules (ipv : String) (chain : String) : List String :=
  ["nft" ++ ipv ++ ":" ++ chain ++ ":tcp-reject",
    "nft" ++ ipv ++ ":" ++ chain ++ ":udp-reject",
    "nft" ++ ipv ++ ":" ++ chain ++ ":drop"]

/-- Fixtures installed by the nftables branch: table, chains, the two timed
sets, then the rules in `DOCKER-USER` or in `INPUT` and `FORWARD`. -/
def ensureFixturesNft (docker : Bool) : List String :=
  ["nft:table", "nft:chain:INPUT", "nft:chain:FORWARD",
    "set:m1m_guardian", "set:m1m_guardian6"] ++
    (if docker then nftChainRules "4" "DOCKER-USER" ++ nftChainRules "6" "DOCKER-USER"
     else
       nftChainRules "4" "INPUT" ++ nftChainRules "4" "FORWARD" ++
         nftChainRules "6" "INPUT" ++ nftChainRules "6" "FORWARD")

/-- The ensure script (firewall.py:50-159): backend-dispatched guarded
installs; without a usable backend (or without `ipset` on the iptables
branch, where every install fails) it changes nothing and exits 0. -/
def applyEnsureScript (st : RemoteFw) : RemoteFw :=
  match st.backend with
  | FwBackend.iptables =>
    if st.ipsetAvailable then addFixtures st (ensureFixturesIpt st.hasDockerUser)
    else st
  | FwBackend.nft => addFixtures st (ensureFixturesNft st.hasDockerUser)
  | FwBackend.noBackend => st

/-- Does some v4 rule mentioning the set exist in one of the chains the
verify script greps? -/
def iptRulesVisible (st : RemoteFw) : Bool :=
  (iptChainRules4 "DOCKER-USER" ++ iptChainRules4 "INPUT" ++
      iptChainRules4 "FORWARD").any (fun f => st.fixtures.contains f)

def nftRulesVisible (st : RemoteFw) : Bool :=
  (nftChainRules "4" "DOCKER-USER" ++ nftChainRules "4" "INPUT" ++
      nftChainRules "4" "FORWARD").any (fun f => st.fixtures.contains f)

/-- The verify script (firewall.py:162-237): confirm tool, set and rule
presence; on the iptables branch a missing rule triggers a one-shot
remediation (`VERIFY_FIX`) followed by a re-check of `DOCKER-USER` and
`INPUT`.  Returns whether the output carries a success token
(`VERIFY_OK` / `VERIFY_FIXED` / `VERIFY_COMPLETE`) and the possibly
remediated remote state. -/
def verifyScript (st : RemoteFw) : Bool × RemoteFw :=
  match st.backend with
  | FwBackend.iptables =>
    if !st.ipsetAvailable then (false, st)
    else if !(st.fixtures.contains "set:m1m_guardian") then (false, st)
    else if iptRulesVisible st then (true, st)
    else
      let st2 :=
        if st.hasDockerUser then addFixtures st (iptChainRules4 "DOCKER-USER")
        else
          addFixtures st ["ipt4:INPUT:drop", "ipt4:FORWARD:drop"]
      if (iptChainRules4 "DOCKER-USER" ++ iptChainRules4 "INPUT").any
          (fun f => st2.fixtures.contains f) then (true, st2)
      else (false, st2)
  | FwBackend.nft =>
    if st.fixtures.contains "set:m1m_guardian" && nftRulesVisible st then
      (true, st)
    else (false, st)
  | FwBackend.noBackend => (false, st)

/-- Remote executions performed by one `ensure_rule` call. -/
inductive EnsureEvent
  | runEnsureScript
  | runVerifyScript
deriving DecidableEq, Repr

/-- Add-if-absent on the `_RULE_ENSURED` cache (a Python `set`). -/
def cacheAdd (cache : List String) (key : String) : List String :=
  if cache.contains key then cache else cache ++ [key]

/-- `firewall.ensure_rule` (40-249): skip entirely when the host key is
cached and the call is not forced; otherwise run the ensure script, run the
verify script, and cache the key exactly when verification reports
success. -/
def ensure_rule (cache : List String) (key : String) (force : Bool)
    (remote : RemoteFw) : List String × RemoteFw × List EnsureEvent :=
  if !force && cache.contains key then (cache, remote, [])
  else
    let r1 := applyEnsureScript remote
    let v := verifyScript r1
    if v.1 then
      (cacheAdd cache key, v.2,
        [EnsureEvent.runEnsureScript, EnsureEvent.runVerifyScript])
    else (cache, v.2, [EnsureEvent.runEnsureScript, EnsureEvent.runVerifyScript])

/-- `n` consecutive non-forced `ensure_rule` calls for the same node. -/
def ensureIter (key : String) : Nat → List String × RemoteFw →
    List String × RemoteFw
  | 0, st => st
  | n + 1, st =>
    let r := ensure_rule st.1 key false st.2
    ensureIter key n (r.1, r.2.1)

/-! ## Host-key rotation (`nodes.py`)

`_diagnose_connectivity` (81-114) probes `echo __M1M_OK__`; on failure whose
output carries an "identification has changed" token it clears the host's
known-host entry and retries, guarded by the process-lifetime set
`_hostkey_cleared` (nodes.py:10).  The raw-line handler inside
`stream_logs` (203-213) shares the same set.  Probe outcomes and the
success of `_remove_known_host` are oracle inputs. -/

def listStartsWith : List Char → List Char → Bool
  | _, [] => true
  | [], _ :: _ => false
  | c :: cs, p :: ps => c == p && listStartsWith cs ps

def containsSeq (pat : List Char) : List Char → Bool
  | [] => listStartsWith [] pat
  | c :: rest => listStartsWith (c :: rest) pat || containsSeq pat rest

/-- Python `pat in hay` on strings. -/
def strContains (hay pat : String) : Bool := containsSeq pat.data hay.data

def okSentinel : String := "__M1M_OK__"

structure ProbeResult where
  rc : Int
  out : String
deriving DecidableEq, Repr

/-- `rc==0 and sentinel.encode() in out`. -/
def probeOk (p : ProbeResult) : Bool :=
  p.rc == 0 && strContains p.out okSentinel

/-- The mismatch test of `_diagnose_connectivity` (nodes.py:94). -/
def hasMismatchToken (t : String) : Bool :=
  strContains t "REMOTE HOST IDENTIFICATION HAS CHANGED" ||
    strContains t "IDENTIFICATION HAS CHANGED"

inductive HKEvent
  | rotationDetected (host : String)
  | removeKnownHost (host : String)
  | retryProbe (host : String)
deriving DecidableEq, Repr

/-- `nodes._diagnose_connectivity`: returns the probe verdict, the updated
`_hostkey_cleared` set, and the host-key actions taken.  `removeOk` is the
return value of `_remove_known_host`. -/
def diagnose_connectivity (cleared : List String) (host : String)
    (firstProbe : ProbeResult) (removeOk : Bool) (retry : ProbeResult) :
    Bool × List String × List HKEvent :=
  if probeOk firstProbe then (true, cleared, [])
  else if hasMismatchToken firstProbe.out then
    if cleared.contains host then (false, cleared, [])
    else
      let cleared2 := cacheAdd cleared host
      if removeOk then
        (probeOk retry, cleared2,
          [HKEvent.rotationDetected host, HKEvent.removeKnownHost host,
            HKEvent.retryProbe host])
      else
        (false, cleared2,
          [HKEvent.rotationDetected host, HKEvent.removeKnownHost host])
  else (false, cleared, [])

/-- The raw-line host-key handler inside `stream_logs` (nodes.py:203-213):
same token, same guard set, removal, then the stream is torn down. -/
def streamMismatchStep (cleared : List String) (host : String)
    (line : String) : List String × List HKEvent :=
  if strContains line "REMOTE HOST IDENTIFICATION HAS CHANGED" &&
      !(cleared.contains host) then
    (cacheAdd cleared host,
      [HKEvent.rotationDetected host, HKEvent.removeKnownHost host])
  else (cleared, [])

/-- One interaction with the shared `_hostkey_cleared` set during the
process lifetime. -/
inductive HKOp
  | probe (host : String) (firstProbe : ProbeResult) (removeOk : Bool)
      (retry : ProbeResult)
  | streamLine (host : String) (line : String)

def stepHK (cleared : List String) : HKOp → List String × List HKEvent
  | HKOp.probe host fp rok rt =>
    let r := diagnose_connectivity cleared host fp rok rt
    (r.2.1, r.2.2)
  | HKOp.streamLine host line => streamMismatchStep cleared host line

/-- A process lifetime: fold the host-key interactions, collecting events. -/
def runHK : List HKOp → List String → List String × List HKEvent
  | [], cleared => (cleared, [])
  | op :: rest, cleared =>
    let r := stepHK cleared op
    let tail := runHK rest r.1
    (tail.1, r.2 ++ tail.2)

/-- Number of known-host removals performed for `host`. -/
def removalCount (evs : List HKEvent) (host : String) : Nat :=
  evs.countP (fun e => e == HKEvent.removeKnownHost host)

/-! ## Per-eviction enforcement fan-out (`watcher.py`, NodeWatcher.run 234-250)

For each address evicted by `add_ip` the watcher skips the address of the
current log line and recently-banned addresses, and otherwise ensures rules
and schedules a ban on every node, marks the address banned, and enqueues a
notification.  The actions are modelled as an explicit list. -/

inductive WatchAction
  | ensureNode (node : String)
  | scheduleBanOn (node : String) (ip : String) (seconds : Int)
  | markBanned (ip : String) (seconds : Int)
  | notifyBan (ip : String)
deriving DecidableEq, Repr

/-- The address an action targets, when it targets one. -/
def actionAddr : WatchAction → Option String
  | WatchAction.ensureNode _ => none
  | WatchAction.scheduleBanOn _ ip _ => some ip
  | WatchAction.markBanned ip _ => some ip
  | WatchAction.notifyBan ip => some ip

/-- Actions for one evicted address (watcher.py:236-250). -/
def perEvictedActions (old ip : String) (bannedRecently : Bool)
    (nodes : List String) (secs : Int) : List WatchAction :=
  if old == ip then []
  else if bannedRecently then []
  else
    ((nodes.map (fun n =>
        [WatchAction.ensureNode n, WatchAction.scheduleBanOn n old secs])).flatten)
      ++ [WatchAction.markBanned old secs, WatchAction.notifyBan old]

/-- The full `for old_ip in evicted` loop. -/
def processEvicted (evicted : List String) (ip : String)
    (bannedRecently : String → Bool) (nodes : List String) (secs : Int) :
    List WatchAction :=
  (evicted.map (fun old =>
      perEvictedActions old ip (bannedRecently old) nodes secs)).flatten

/-! ## Log-line parser (`parser.py`)

The regex

```
from\s+(?:tcp:|udp:)?
(?:\[(?P<ipv6>[0-9a-fA-F:]+)\]|(?P<ipv4>\d{1,3}(?:\.\d{1,3}){3})):(?P<port>\d+)
.*?\baccepted\b.*?\[(?P<bracket>[^\]]+)\].*?\bemail:\s*(?P<email>\S+)
```

with `re.IGNORECASE` is embedded as an explicit scanner with the same
backtracking behaviour on ASCII input: `RX.search` tries each start
position left to right; the lazy `.*?` pieces skip the fewest possible
non-newline characters; the greedy character-class pieces take maximal runs
(a shorter run always ends at a character the following literal rejects, so
maximal-run-then-check is exact); `\b` compares word-ness of the neighbouring
characters. -/

def ciEq (c p : Char) : Bool := c.toLower == p.toLower

/-- Match a literal case-insensitively; returns the remaining input. -/
def matchLitCI : List Char → List Char → Option (List Char)
  | [], l => some l
  | _ :: _, [] => none
  | p :: ps, c :: cs => if ciEq c p then matchLitCI ps cs else none

/-- Python `\w` on ASCII input. -/
def isWordChar (c : Char) : Bool :=
  ('a' ≤ c && c ≤ 'z') || ('A' ≤ c && c ≤ 'Z') || isDigitChar c || c == '_'

/-- Python `\s` on ASCII input. -/
def isSpaceChar (c : Char) : Bool :=
  c == ' ' || c == '\t' || c == '\n' || c == '\r' || c == '\x0b' || c == '\x0c'

/-- The `[0-9a-fA-F:]` class of the ipv6 group. -/
def isHexColon (c : Char) : Bool := isHexChar c || c == ':'

/-- `\.\d{1,3}` (a 1-3 digit run whose following character is not a digit;
longer runs fail every backtracking split). -/
def matchDotOctet (l : List Char) : Option (List Char × List Char) :=
  match l with
  | '.' :: r =>
    let d := r.takeWhile isDigitChar
    if d.isEmpty || 3 < d.length then none
    else some ('.' :: d, r.dropWhile isDigitChar)
  | _ => none

/-- `\d{1,3}(?:\.\d{1,3}){3}`, returning the captured group and the rest. -/
def matchIPv4 (l : List Char) : Option (List Char × List Char) :=
  let d1 := l.takeWhile isDigitChar
  if d1.isEmpty || 3 < d1.length then none
  else
    match matchDotOctet (l.dropWhile isDigitChar) with
    | none => none
    | some (g2, r2) =>
      match matchDotOctet r2 with
      | none => none
      | some (g3, r3) =>
        match matchDotOctet r3 with
        | none => none
        | some (g4, r4) => some (d1 ++ g2 ++ g3 ++ g4, r4)

/-- `(?:\[(?P<ipv6>[0-9a-fA-F:]+)\]|(?P<ipv4>...))`: the bracketed ipv6
branch first, then the ipv4 branch.  Returns `((ipv6?, ipv4?), rest)`. -/
def matchAddr (l : List Char) :
    Option ((Option (List Char) × Option (List Char)) × List Char) :=
  let br :=
    match l with
    | '[' :: r =>
      let g := r.takeWhile isHexColon
      if g.isEmpty then none
      else
        match r.dropWhile isHexColon with
        | ']' :: r2 => some ((some g, (none : Option (List Char))), r2)
        | _ => none
    | _ => none
  match br with
  | some x => some x
  | none =>
    match matchIPv4 l with
    | none => none
    | some (g, r) => some (((none : Option (List Char)), some g), r)

/-- `:(?P<port>\d+)`; also returns the last port digit (the character
preceding the following lazy region, used for `\b`). -/
def matchPort : List Char → Option (Char × List Char)
  | ':' :: r =>
    let d := r.takeWhile isDigitChar
    if d.isEmpty then none
    else some (d.getLastD '0', r.dropWhile isDigitChar)
  | _ => none

/-- `.*?\baccepted\b`: skip the fewest non-newline characters to a
word-bounded occurrence of `accepted`. -/
def scanAccepted (prev : Char) : List Char → Option (List Char)
  | [] => none
  | c :: rest =>
    let tryHere : Option (List Char) :=
      if isWordChar prev then none
      else
        match matchLitCI "accepted".data (c :: rest) with
        | some r2 =>
          match r2 with
          | [] => some []
          | d :: _ => if isWordChar d then none else some r2
        | none => none
    match tryHere with
    | some r => some r
    | none => if c == '\n' then none else scanAccepted c rest

/-- `.*?\[(?P<bracket>[^\]]+)\]`: skip the fewest non-newline characters to
a `[`-group that closes with a non-empty body. -/
def scanBracket : List Char → Option (List Char × List Char)
  | [] => none
  | c :: rest =>
    let tryHere : Option (List Char × List Char) :=
      if c == '[' then
        let g := rest.takeWhile (fun d => d ≠ ']')
        match g, rest.dropWhile (fun d => d ≠ ']') with
        | _ :: _, ']' :: r2 => some (g, r2)
        | _, _ => none
      else none
    match tryHere with
    | some x => some x
    | none => if c == '\n' then none else scanBracket rest

/-- `.*?\bemail:\s*(?P<email>\S+)`: skip the fewest non-newline characters
to a word-bounded `email:`, then greedy spaces, then a non-empty non-space
run. -/
def scanEmail (prev : Char) : List Char → Option (List Char)
  | [] => none
  | c :: rest =>
    let tryHere : Option (List Char) :=
      if isWordChar prev then none
      else
        match matchLitCI "email:".data (c :: rest) with
        | some r2 =>
          let em := (r2.dropWhile isSpaceChar).takeWhile (fun d => !isSpaceChar d)
          if em.isEmpty then none else some em
        | none => none
    match tryHere with
    | some em => some em
    | none => if c == '\n' then none else scanEmail c rest

/-- Captured groups of a successful `RX` match. -/
structure RXMatch where
  ipv6 : Option (List Char)
  ipv4 : Option (List Char)
  bracket : List Char
  email : List Char
deriving DecidableEq, Repr

/-- Attempt the whole pattern at the current position. -/
def matchRXAt (l : List Char) : Option RXMatch :=
  match matchLitCI "from".data l with
  | none => none
  | some r1 =>
    if (r1.takeWhile isSpaceChar).isEmpty then none
    else
      let r2 := r1.dropWhile isSpaceChar
      let r3 :=
        match matchLitCI "tcp:".data r2 with
        | some x => x
        | none =>
          match matchLitCI "udp:".data r2 with
          | some x => x
          | none => r2
      match matchAddr r3 with
      | none => none
      | some (grps, r4) =>
        match matchPort r4 with
        | none => none
        | some (lastDigit, r5) =>
          match scanAccepted lastDigit r5 with
          | none => none
          | some r6 =>
            match scanBracket r6 with
            | none => none
            | some (br, r7) =>
              match scanEmail ']' r7 with
              | none => none
              | some em =>
                some { ipv6 := grps.1, ipv4 := grps.2, bracket := br, email := em }

/-- `RX.search`: leftmost match. -/
def searchRX : List Char → Option RXMatch
  | [] => matchRXAt []
  | c :: rest =>
    match matchRXAt (c :: rest) with
    | some m => some m
    | none => searchRX rest

/-- Prefix of a list before the first occurrence of a (non-empty)
separator sequence, mirroring `s.split(sep, 1)[0]`. -/
def beforeFirstSeq (sep : List Char) : List Char → List Char
  | [] => []
  | c :: rest =>
    if listStartsWith (c :: rest) sep then []
    else c :: beforeFirstSeq sep rest

/-- Python `str.strip()` on ASCII input. -/
def stripChars (l : List Char) : List Char :=
  ((l.dropWhile isSpaceChar).reverse.dropWhile isSpaceChar).reverse

/-- `parser.inbound_from_br`: the bracket label up to `->` or `>>`,
stripped; `"default"` when empty. -/
def inbound_from_br (s : String) : String :=
  let core := stripChars (beforeFirstSeq ">>".data (beforeFirstSeq "->".data s.data))
  if core.isEmpty then "default" else String.mk core

/-- `parser.parse_line`: `(email, ip, inbound)`, all `None` when the regex
does not match; `ip` is the ipv4 group when it participated, otherwise the
ipv6 group. -/
def parse_line (line : String) : Option String × Option String × Option String :=
  match searchRX line.data with
  | none => (none, none, none)
  | some m =>
    let ip :=
      match m.ipv4 with
      | some g => some (String.mk g)
      | none => m.ipv6.map String.mk
    (some (String.mk m.email), ip, some (inbound_from_br (String.mk m.bracket)))

/-! ## Concrete worker-slot traces

Concrete address families and operation sequences used to evaluate the
pending-slot model at its actual constants (`MAX_PENDING = 20000`,
`MAX_BATCH = 500`). -/

/-- The member names of a pending slot, in insertion order. -/
def pendingKeys (pend : Pending) : List String := pend.map (fun p => p.1)

/-- The decimal digit character for `d < 10`. -/
def digitChar (d : Nat) : Char := Char.ofNat (48 + d)

/-- Decimal rendering of an octet value (1-3 digits, no leading zero). -/
def octetStr (n : Nat) : List Char :=
  if n < 10 then [digitChar n]
  else if n < 100 then [digitChar (n / 10), digitChar (n % 10)]
  else [digitChar (n / 100), digitChar (n / 10 % 10), digitChar (n % 10)]

/-- The `i`-th address of a concrete valid IPv4 family `10.1.a.b`
(`a = i / 256`, `b = i % 256`). -/
def ipOf (i : Nat) : String :=
  String.mk (['1', '0', '.', '1', '.'] ++ octetStr (i / 256)
    ++ '.' :: octetStr (i % 256))

/-- `n` consecutive distinct addresses starting at index `lo`. -/
def fillIps (lo n : Nat) : List String := (List.range n).map (fun j => ipOf (lo + j))

/-- The pending entries produced by scheduling `fillIps lo n` with TTL 600
at clock `now`. -/
def fillPend (lo n now : Nat) : Pending :=
  (fillIps lo n).map (fun ip => (ip, mkBanItem ip 600 now))

/-- Fold a list of `schedule_ban` calls (rules already ensured, fixed TTL
and clock), keeping the worker state. -/
def scheduleFill (st : WorkerState) (ips : List String) (secs : Int)
    (now : Nat) : WorkerState :=
  ips.foldl (fun acc ip => (schedule_ban acc true ip secs now).2.1) st

def emptyWorker : WorkerState := { pending := [], lastReport := 0 }

/-- Fill the pending slot to the cap through `schedule_ban`. -/
def overflowStage1 : WorkerState := scheduleFill emptyWorker (fillIps 0 20000) 600 0

/-- The worker drains one batch (popping the 500 most recent entries). -/
def overflowDrain : List BanItem × Pending := drainBatch overflowStage1.pending

/-- While the batch is in flight, 500 further distinct addresses are
accepted (the slot is back at the cap). -/
def overflowStage2 : WorkerState :=
  scheduleFill { overflowStage1 with pending := overflowDrain.2 }
    (fillIps 20000 500) 600 1

/-- The batch fails (non-zero exit) and `_apply_batch` re-inserts the
drained items with no cap check. -/
def overflowFinal : Pending := reinsert overflowStage2.pending overflowDrain.1

/-- A pending slot of 501 distinct addresses enqueued in index order
(enqueue time = index). -/
def pend501 : Pending :=
  (List.range 501).map (fun j => (ipOf j, mkBanItem (ipOf j) 600 j))

/-- First drained batch and the remainder. -/
def drain501 : List BanItem × Pending := drainBatch pend501

/-- Second drained batch. -/
def drain501b : List BanItem × Pending := drainBatch drain501.2

/-!
# Theorems

The remainder of the file settles the specification claims against the
definitions above.  Helper lemmas are shared; each claim is settled by one
theorem carrying the claim id in its doc comment.
-/

/-! ### C9 — parser on the concrete accepted-connection line -/

/-- **C9.** Parsing
`from tcp:203.0.113.5:48290 accepted tcp:example.com:443 [VMESS_TCP -> IPv4] email: 42.alice`
yields the raw untrimmed user `42.alice`, the address `203.0.113.5`, and the
inbound `VMESS_TCP` (the bracket label truncated at `->` and stripped). -/
theorem parse_line_concrete_accept_line :
    parse_line "from tcp:203.0.113.5:48290 accepted tcp:example.com:443 [VMESS_TCP -> IPv4] email: 42.alice"
      = (some "42.alice", some "203.0.113.5", some "VMESS_TCP") := by decide

/-! ### C10 — the watcher skips an evicted address equal to the line's address -/

theorem perEvictedActions_addr (old ip : String) (b : Bool)
    (nodes : List String) (secs : Int) (a : WatchAction)
    (ha : a ∈ perEvictedActions old ip b nodes secs) (x : String)
    (hx : actionAddr a = some x) : x = old ∧ old ≠ ip := by
  unfold perEvictedActions at ha
  by_cases h1 : old = ip
  · simp [h1] at ha
  · rw [if_neg (by simpa using h1)] at ha
    by_cases h2 : b
    · simp [h2] at ha
    · rw [if_neg h2, List.mem_append] at ha
      rcases ha with ha | ha
      · rw [List.mem_flatten] at ha
        obtain ⟨l, hl, hal⟩ := ha
        rw [List.mem_map] at hl
        obtain ⟨n, _, rfl⟩ := hl
        rcases hal with _ | ⟨_, hal⟩
        · simp [actionAddr] at hx
        · rcases hal with _ | ⟨_, hal⟩
          · simp [actionAddr] at hx
            exact ⟨hx.symm, h1⟩
          · cases hal
      · rcases ha with _ | ⟨_, ha⟩
        · simp [actionAddr] at hx
          exact ⟨hx.symm, h1⟩
        · rcases ha with _ | ⟨_, ha⟩
          · simp [actionAddr] at hx
            exact ⟨hx.symm, h1⟩
          · cases ha

/-- **C10.** When `add_ip` returns an evicted address equal to the address
just observed on the current line, the watcher's eviction loop produces no
action for it: no per-node `schedule_ban`, no recent-ban marker, no
notification (watcher.py:236 `if old_ip == ip: continue`).  Every action
produced targets an address different from the line's address. -/
theorem watcher_skips_current_line_address (evicted : List String)
    (ip : String) (bannedRecently : String → Bool) (nodes : List String)
    (secs : Int) :
    (processEvicted evicted ip bannedRecently nodes secs).all
      (fun a => !(actionAddr a == some ip)) = true := by
  rw [List.all_eq_true]
  intro a ha
  rw [processEvicted, List.mem_flatten] at ha
  obtain ⟨l, hl, hal⟩ := ha
  rw [List.mem_map] at hl
  obtain ⟨old, _, rfl⟩ := hl
  cases hx : actionAddr a with
  | none => simp [hx]
  | some x =>
    obtain ⟨rfl, hne⟩ := perEvictedActions_addr old ip _ nodes secs a hal x hx
    simp [hx]
    exact hne

/-! ### C2 — invalid addresses never reach the firewall layer -/

/-- **C2.** A string that does not validate as IPv4 or IPv6 is rejected by
every firewall-layer operation — `schedule_ban`, `ban_ip`, `unban_ip`,
`is_banned` — with result `False`, unchanged worker state, and no remote
command or event; conversely any remote ban command ever built carries a
validated address, so every address reaching a firewall set is
syntactically valid. -/
theorem firewall_rejects_invalid_addresses (ip : String) (seconds : Int)
    (remoteConfirm : Bool) (remoteRc : Int) (spawnOk : Bool)
    (st : WorkerState) (ensured : Bool) (now : Nat)
    (ip2 : String) (s2 : Int) (c2 : Bool) (v6 : Bool) (i : String) (sec : Int)
    (h : isValidIP ip = false)
    (hmem : FwRemoteOp.banCmd v6 i sec ∈ (ban_ip ip2 s2 c2).2) :
    ban_ip ip seconds remoteConfirm = (false, []) ∧
    is_banned ip remoteRc = (false, []) ∧
    unban_ip ip spawnOk = (false, []) ∧
    schedule_ban st ensured ip seconds now = (false, st, []) ∧
    isValidIP i = true := by
  refine ⟨?_, ?_, ?_, ?_, ?_⟩
  · rw [ban_ip, h]; rfl
  · rw [is_banned, h]; rfl
  · rw [unban_ip, h]; rfl
  · rw [schedule_ban, h]; rfl
  · rw [ban_ip] at hmem
    by_cases h2 : isValidIP ip2
    · rw [if_pos h2] at hmem
      rcases hmem with _ | ⟨_, hmem⟩
      · exact h2
      · cases hmem
    · rw [if_neg h2] at hmem
      cases hmem

/-- Witness for C2 at a concrete invalid address and a concrete remote
command. -/
theorem firewall_rejects_invalid_addresses_witness :
    ban_ip "999.999.999.999" 600 true = (false, []) ∧
    is_banned "999.999.999.999" 0 = (false, []) ∧
    unban_ip "999.999.999.999" true = (false, []) ∧
    schedule_ban emptyWorker true "999.999.999.999" 600 0 = (false, emptyWorker, []) ∧
    isValidIP "1.2.3.4" = true :=
  firewall_rejects_invalid_addresses "999.999.999.999" 600 true 0 true
    emptyWorker true 0 "1.2.3.4" 600 true false "1.2.3.4" 600
    (by decide) (by decide)

/-! ### Association-list lemmas for the pending dict -/

theorem pendingLookup_eq_none (pend : Pending) (ip : String)
    (h : ip ∉ pendingKeys pend) : pendingLookup pend ip = none := by
  have hf : pend.find? (fun p => p.1 == ip) = none :=
    List.find?_eq_none.mpr (fun x hx hbeq =>
      h (List.mem_map.mpr ⟨x, hx, by simpa using hbeq⟩))
  rw [pendingLookup, hf]
  rfl

theorem find?_append_of_none {α : Type} (p : α → Bool) (l1 l2 : List α)
    (h : l1.find? p = none) : (l1 ++ l2).find? p = l2.find? p := by
  induction l1 with
  | nil => rfl
  | cons a rest ih =>
    by_cases ha : p a
    · rw [List.find?_cons_of_pos _ ha] at h
      cases h
    · rw [List.cons_append, List.find?_cons_of_neg _ ha]
      rw [List.find?_cons_of_neg _ ha] at h
      exact ih h

theorem pendingLookup_append_fresh (pend : Pending) (ip : String)
    (it : BanItem) (h : ip ∉ pendingKeys pend) :
    pendingLookup (pend ++ [(ip, it)]) ip = some it := by
  have hf : pend.find? (fun p => p.1 == ip) = none :=
    List.find?_eq_none.mpr (fun x hx hbeq =>
      h (List.mem_map.mpr ⟨x, hx, by simpa using hbeq⟩))
  rw [pendingLookup, find?_append_of_none _ _ _ hf]
  simp [List.find?]

theorem pendingLookup_pendingSet (pend : Pending) (ip : String) (it : BanItem)
    (h : pend.any (fun p => p.1 == ip) = true) :
    pendingLookup (pendingSet pend ip it) ip = some it := by
  rw [pendingSet, if_pos h]
  induction pend with
  | nil => simp at h
  | cons q rest ih =>
    by_cases hq : q.1 = ip
    · have hfq : (if q.1 == ip then ((ip, it) : String × BanItem) else q) = (ip, it) := by
        simp [hq]
      rw [pendingLookup, List.map_cons, hfq, List.find?_cons_of_pos]
      · rfl
      · simp
    · have hq' : (q.1 == ip) = false := by simpa using hq
      have hfq : (if q.1 == ip then ((ip, it) : String × BanItem) else q) = q := by
        simp [hq']
      have hr : rest.any (fun p => p.1 == ip) = true := by
        rw [List.any_cons, hq'] at h
        simpa using h
      have hih := ih hr
      rw [pendingLookup] at hih ⊢
      rw [List.map_cons, hfq, List.find?_cons_of_neg]
      · exact hih
      · simpa using hq

theorem filter_map_key (pend : Pending) (ip : String) (it : BanItem) :
    ((pend.map (fun p => if p.1 == ip then (ip, it) else p)).filter
        (fun p => p.1 == ip)).length
      = (pend.filter (fun p => p.1 == ip)).length := by
  induction pend with
  | nil => rfl
  | cons q rest ih =>
    by_cases hq : q.1 = ip
    · have hfq : (if q.1 == ip then ((ip, it) : String × BanItem) else q) = (ip, it) := by
        simp [hq]
      have hip : ((((ip, it) : String × BanItem)).1 == ip) = true := by simp
      have hq2 : (q.1 == ip) = true := by simp [hq]
      rw [List.map_cons, hfq, List.filter_cons, List.filter_cons, if_pos hip, if_pos hq2]
      rw [List.length_cons, List.length_cons, ih]
    · have hfq : (if q.1 == ip then ((ip, it) : String × BanItem) else q) = q := by
        simp [hq]
      have hq2 : (q.1 == ip) = false := by simpa using hq
      rw [List.map_cons, hfq, List.filter_cons, List.filter_cons, hq2]
      simpa using ih

theorem filter_key_eq_nil (pend : Pending) (ip : String)
    (h : ip ∉ pendingKeys pend) : pend.filter (fun p => p.1 == ip) = [] := by
  induction pend with
  | nil => rfl
  | cons q rest ih =>
    rw [pendingKeys, List.map_cons, List.mem_cons, not_or] at h
    have hq : (q.1 == ip) = false := by
      simp only [beq_eq_false_iff_ne, ne_eq]
      exact fun e => h.1 e.symm
    rw [List.filter_cons, hq]
    exact ih (by rw [pendingKeys]; exact h.2)

theorem pendingSet_any_keeps (pend : Pending) (ip : String) (it : BanItem)
    (h : pend.any (fun p => p.1 == ip) = true) :
    pendingSet pend ip it = pend.map (fun p => if p.1 == ip then (ip, it) else p) := by
  rw [pendingSet, if_pos h]

/-! ### C4 — re-enqueueing dedup keeps one entry with the max TTL -/

/-- **C4 (amended).** Scheduling a valid, not-yet-pending address with TTL
`t1` and then re-scheduling it with TTL `t2` leaves exactly one pending
entry for it, with TTL `max(max(1, t1), t2)`: the `_BanItem` constructor
clamps the stored TTL to at least 1 (`int(max(1, ttl))`), after which the
re-enqueue keeps the maximum of the stored and the new TTL.  For
`t1, t2 ≥ 1` this is exactly `max(t1, t2)`, as the original claim states;
TTLs below 1 are clamped up to 1 on first insertion (see the
counterexample). -/
theorem schedule_ban_dedup_max_ttl (st : WorkerState) (ip : String)
    (t1 t2 : Int) (now1 now2 : Nat) (e1 e2 : Bool)
    (hvalid : isValidIP ip = true)
    (hfresh : ip ∉ pendingKeys st.pending)
    (hlen : st.pending.length < MAX_PENDING) :
    (schedule_ban st e1 ip t1 now1).1 = true ∧
    (schedule_ban (schedule_ban st e1 ip t1 now1).2.1 e2 ip t2 now2).1 = true ∧
    pendingLookup
        (schedule_ban (schedule_ban st e1 ip t1 now1).2.1 e2 ip t2 now2).2.1.pending ip
      = some { ip := ip, ttl := max (max 1 t1) t2, enq := now1 } ∧
    ((schedule_ban (schedule_ban st e1 ip t1 now1).2.1 e2 ip t2 now2).2.1.pending.filter
        (fun p => p.1 == ip)).length = 1 := by
  have hlk : pendingLookup st.pending ip = none := pendingLookup_eq_none _ _ hfresh
  have hcap : ¬ (MAX_PENDING ≤ st.pending.length) := Nat.not_le.mpr hlen
  have h1 : schedule_ban st e1 ip t1 now1
      = (true, { st with pending := st.pending ++ [(ip, mkBanItem ip t1 now1)] },
          (if e1 then [] else [FwEvent.ensureAttempt]) ++ [FwEvent.wake]) := by
    rw [schedule_ban, if_pos hvalid, hlk]
    simp [hcap]
  have hlk2 : pendingLookup (st.pending ++ [(ip, mkBanItem ip t1 now1)]) ip
      = some (mkBanItem ip t1 now1) := pendingLookup_append_fresh _ _ _ hfresh
  have hany : (st.pending ++ [(ip, mkBanItem ip t1 now1)]).any
      (fun p => p.1 == ip) = true := by
    rw [List.any_eq_true]
    exact ⟨(ip, mkBanItem ip t1 now1), List.mem_append_right _ (by simp), by simp⟩
  have hitem : (if (mkBanItem ip t1 now1).ttl < t2 then
        { mkBanItem ip t1 now1 with ttl := t2 } else mkBanItem ip t1 now1)
      = { ip := ip, ttl := max (max 1 t1) t2, enq := now1 } := by
    rw [mkBanItem]
    by_cases hlt : max 1 t1 < t2
    · rw [if_pos hlt]
      simp [max_eq_right (le_of_lt hlt)]
    · rw [if_neg hlt]
      simp [max_eq_left (le_of_not_lt hlt)]
  have h2 : schedule_ban
        { st with pending := st.pending ++ [(ip, mkBanItem ip t1 now1)] } e2 ip t2 now2
      = (true,
          { pending := pendingSet (st.pending ++ [(ip, mkBanItem ip t1 now1)]) ip
              (BanItem.mk ip (max (max 1 t1) t2) now1),
            lastReport := st.lastReport },
          (if e2 then [] else [FwEvent.ensureAttempt]) ++ [FwEvent.wake]) := by
    rw [schedule_ban, if_pos hvalid]
    simp only [hlk2, hitem]
  rw [h1, h2]
  refine ⟨rfl, rfl, ?_, ?_⟩
  · show pendingLookup (pendingSet (st.pending ++ [(ip, mkBanItem ip t1 now1)]) ip
        (BanItem.mk ip (max (max 1 t1) t2) now1)) ip
      = some (BanItem.mk ip (max (max 1 t1) t2) now1)
    exact pendingLookup_pendingSet _ _ _ hany
  · show ((pendingSet (st.pending ++ [(ip, mkBanItem ip t1 now1)]) ip
        (BanItem.mk ip (max (max 1 t1) t2) now1)).filter
          (fun p => p.1 == ip)).length = 1
    rw [pendingSet_any_keeps _ _ _ hany, filter_map_key]
    rw [List.filter_append, filter_key_eq_nil _ _ hfresh]
    simp

/-- **C4 counterexample.** As literally stated the claim fails at
`t1 = t2 = 0`: the stored TTL is clamped to 1, not `max(0, 0) = 0`. -/
theorem schedule_ban_ttl_zero_counterexample :
    (pendingLookup ((schedule_ban (schedule_ban emptyWorker true "1.2.3.4" 0 0).2.1
          true "1.2.3.4" 0 1).2.1).pending "1.2.3.4").map BanItem.ttl = some 1 ∧
    ¬ ((1 : Int) = max (0 : Int) 0) := by decide

/-- Witness for C4 at a concrete state and TTL pair. -/
theorem schedule_ban_dedup_max_ttl_witness :
    (schedule_ban emptyWorker true "1.2.3.4" 100 0).1 = true ∧
    (schedule_ban (schedule_ban emptyWorker true "1.2.3.4" 100 0).2.1 true "1.2.3.4" 600 1).1 = true ∧
    pendingLookup
        (schedule_ban (schedule_ban emptyWorker true "1.2.3.4" 100 0).2.1 true "1.2.3.4" 600 1).2.1.pending "1.2.3.4"
      = some { ip := "1.2.3.4", ttl := max (max 1 100) 600, enq := 0 } ∧
    ((schedule_ban (schedule_ban emptyWorker true "1.2.3.4" 100 0).2.1 true "1.2.3.4" 600 1).2.1.pending.filter
        (fun p => p.1 == "1.2.3.4")).length = 1 :=
  schedule_ban_dedup_max_ttl emptyWorker "1.2.3.4" 100 600 0 1 true true
    (by decide) (by decide) (by decide)

/-! ### C7 — host-key rotation is recovered at most once per host -/

theorem subset_cacheAdd (c : List String) (k : String) : c ⊆ cacheAdd c k := by
  intro x hx
  rw [cacheAdd]
  split
  · exact hx
  · exact List.mem_append_left _ hx

theorem self_mem_cacheAdd (c : List String) (k : String) : k ∈ cacheAdd c k := by
  rw [cacheAdd]
  split
  · next h => simpa using h
  · exact List.mem_append_right _ (by simp)

theorem removalCount_nil (host : String) : removalCount [] host = 0 := rfl

theorem removalCount_pair (h host : String) :
    removalCount [HKEvent.rotationDetected h, HKEvent.removeKnownHost h] host
      = if h = host then 1 else 0 := by
  rw [removalCount]
  by_cases he : h = host
  · subst he
    simp [List.countP_cons]
  · simp [List.countP_cons, List.countP_nil, he]

theorem removalCount_triple (h host : String) :
    removalCount [HKEvent.rotationDetected h, HKEvent.removeKnownHost h,
        HKEvent.retryProbe h] host
      = if h = host then 1 else 0 := by
  rw [removalCount]
  by_cases he : h = host
  · subst he
    simp [List.countP_cons]
  · simp [List.countP_cons, List.countP_nil, he]

theorem stepHK_facts (cleared : List String) (op : HKOp) (host : String) :
    cleared ⊆ (stepHK cleared op).1 ∧
    (host ∈ cleared → removalCount (stepHK cleared op).2 host = 0) ∧
    removalCount (stepHK cleared op).2 host ≤ 1 ∧
    (1 ≤ removalCount (stepHK cleared op).2 host → host ∈ (stepHK cleared op).1) := by
  have trivialFacts : ∀ (c : List String),
      c ⊆ c ∧ (host ∈ c → removalCount [] host = 0) ∧
        removalCount [] host ≤ 1 ∧
        (1 ≤ removalCount [] host → host ∈ c) := by
    intro c
    refine ⟨fun x hx => hx, fun _ => rfl, by rw [removalCount_nil]; omega, ?_⟩
    rw [removalCount_nil]
    omega
  have freshFacts : ∀ (h : String) (evs : List HKEvent),
      removalCount evs host = (if h = host then 1 else 0) →
      h ∉ cleared →
      (cleared ⊆ cacheAdd cleared h ∧
        (host ∈ cleared → removalCount evs host = 0) ∧
        removalCount evs host ≤ 1 ∧
        (1 ≤ removalCount evs host → host ∈ cacheAdd cleared h)) := by
    intro h evs hcount hnot
    refine ⟨subset_cacheAdd _ _, ?_, ?_, ?_⟩
    · intro hin
      rw [hcount]
      have : h ≠ host := fun he => hnot (he ▸ hin)
      simp [this]
    · rw [hcount]
      split <;> omega
    · intro hge
      rw [hcount] at hge
      by_cases he : h = host
      · exact he ▸ self_mem_cacheAdd _ _
      · simp [he] at hge
  cases op with
  | probe h fp rok rt =>
    rw [stepHK, diagnose_connectivity]
    by_cases h1 : probeOk fp
    · simp only [h1, if_true]
      exact trivialFacts cleared
    · rw [if_neg (by simpa using h1)]
      by_cases h2 : hasMismatchToken fp.out
      · rw [if_pos (by simpa using h2)]
        by_cases h3 : cleared.contains h
        · rw [if_pos (by simpa using h3)]
          exact trivialFacts cleared
        · rw [if_neg (by simpa using h3)]
          have hnot : h ∉ cleared := by simpa using h3
          by_cases h4 : rok
          · rw [if_pos (by simpa using h4)]
            exact freshFacts h _ (removalCount_triple h host) hnot
          · rw [if_neg (by simpa using h4)]
            exact freshFacts h _ (removalCount_pair h host) hnot
      · rw [if_neg (by simpa using h2)]
        exact trivialFacts cleared
  | streamLine h line =>
    rw [stepHK, streamMismatchStep]
    by_cases h1 : strContains line "REMOTE HOST IDENTIFICATION HAS CHANGED" &&
        !(cleared.contains h)
    · rw [if_pos (by simpa using h1)]
      have hnot : h ∉ cleared := by
        have h1b : (strContains line "REMOTE HOST IDENTIFICATION HAS CHANGED"
            && !(cleared.contains h)) = true := by simpa using h1
        rcases (Bool.and_eq_true _ _).mp h1b with ⟨_, hr⟩
        simpa using hr
      exact freshFacts h _ (removalCount_pair h host) hnot
    · rw [if_neg (by simpa using h1)]
      exact trivialFacts cleared

theorem runHK_removal_bound (ops : List HKOp) (cleared : List String)
    (host : String) :
    removalCount (runHK ops cleared).2 host ≤ if host ∈ cleared then 0 else 1 := by
  induction ops generalizing cleared with
  | nil =>
    rw [runHK, removalCount_nil]
    omega
  | cons op rest ih =>
    rw [runHK]
    obtain ⟨hsub, hzero, hle1, hmem⟩ := stepHK_facts cleared op host
    have hsum : removalCount ((stepHK cleared op).2 ++ (runHK rest (stepHK cleared op).1).2) host
        = removalCount (stepHK cleared op).2 host
          + removalCount (runHK rest (stepHK cleared op).1).2 host := by
      rw [removalCount, removalCount, removalCount, List.countP_append]
    have htail := ih (stepHK cleared op).1
    by_cases hc : host ∈ cleared
    · rw [if_pos hc]
      rw [if_pos (hsub hc)] at htail
      simp only [hsum, hzero hc]
      omega
    · rw [if_neg hc]
      by_cases hfirst : 1 ≤ removalCount (stepHK cleared op).2 host
      · rw [if_pos (hmem hfirst)] at htail
        simp only [hsum]
        omega
      · have h0 : removalCount (stepHK cleared op).2 host = 0 := by omega
        simp only [hsum, h0]
        split at htail <;> omega

/-- **C7.** Host-key rotation is auto-recovered at most once per host for
the process lifetime: a connectivity probe that fails with the
identification-has-changed token on a host not yet in `_hostkey_cleared`
removes the stale known-host entry and performs exactly one automatic retry
whose outcome is the call's verdict; once the host is in the set, any later
failing probe performs no removal and surfaces as an ordinary connectivity
failure; and along any process lifetime (probes and stream lines
interleaved) at most one known-host removal is ever performed per host. -/
theorem hostkey_rotation_once (cleared : List String) (host : String)
    (fp : ProbeResult) (removeOk : Bool) (rt : ProbeResult) (ops : List HKOp)
    (hfail : probeOk fp = false) :
    (hasMismatchToken fp.out = true → host ∉ cleared → removeOk = true →
       diagnose_connectivity cleared host fp removeOk rt
         = (probeOk rt, cacheAdd cleared host,
             [HKEvent.rotationDetected host, HKEvent.removeKnownHost host,
               HKEvent.retryProbe host])) ∧
    (host ∈ cleared →
       diagnose_connectivity cleared host fp removeOk rt = (false, cleared, [])) ∧
    removalCount (runHK ops []).2 host ≤ 1 := by
  refine ⟨?_, ?_, ?_⟩
  · intro htok hnot hrok
    rw [diagnose_connectivity, if_neg (by simp [hfail]), if_pos (by simpa using htok),
      if_neg (by simpa using hnot), if_pos (by simpa using hrok)]
  · intro hin
    rw [diagnose_connectivity, if_neg (by simp [hfail])]
    by_cases h2 : hasMismatchToken fp.out
    · rw [if_pos (by simpa using h2), if_pos (by simpa using hin)]
    · rw [if_neg (by simpa using h2)]
  · have := runHK_removal_bound ops [] host
    simpa using this

/-- Witness for C7: a concrete rotated-host probe and a two-probe lifetime
for the same host. -/
theorem hostkey_rotation_once_witness :
    (hasMismatchToken (ProbeResult.mk 255 "REMOTE HOST IDENTIFICATION HAS CHANGED").out = true →
       "node1.example" ∉ ([] : List String) → true = true →
       diagnose_connectivity [] "node1.example"
           (ProbeResult.mk 255 "REMOTE HOST IDENTIFICATION HAS CHANGED") true
           (ProbeResult.mk 0 "__M1M_OK__")
         = (probeOk (ProbeResult.mk 0 "__M1M_OK__"), cacheAdd [] "node1.example",
             [HKEvent.rotationDetected "node1.example",
               HKEvent.removeKnownHost "node1.example",
               HKEvent.retryProbe "node1.example"])) ∧
    ("node1.example" ∈ ([] : List String) →
       diagnose_connectivity [] "node1.example"
           (ProbeResult.mk 255 "REMOTE HOST IDENTIFICATION HAS CHANGED") true
           (ProbeResult.mk 0 "__M1M_OK__")
         = (false, [], [])) ∧
    removalCount
        (runHK
          [HKOp.probe "node1.example"
              (ProbeResult.mk 255 "REMOTE HOST IDENTIFICATION HAS CHANGED") true
              (ProbeResult.mk 0 "__M1M_OK__"),
            HKOp.probe "node1.example"
              (ProbeResult.mk 255 "REMOTE HOST IDENTIFICATION HAS CHANGED") true
              (ProbeResult.mk 0 "__M1M_OK__")]
          []).2 "node1.example" ≤ 1 :=
  hostkey_rotation_once [] "node1.example"
    (ProbeResult.mk 255 "REMOTE HOST IDENTIFICATION HAS CHANGED") true
    (ProbeResult.mk 0 "__M1M_OK__")
    [HKOp.probe "node1.example"
        (ProbeResult.mk 255 "REMOTE HOST IDENTIFICATION HAS CHANGED") true
        (ProbeResult.mk 0 "__M1M_OK__"),
      HKOp.probe "node1.example"
        (ProbeResult.mk 255 "REMOTE HOST IDENTIFICATION HAS CHANGED") true
        (ProbeResult.mk 0 "__M1M_OK__")]
    (by decide)

/-! ### C8 — ensure-rules idempotence and cache discipline -/

theorem addFixture_backend (st : RemoteFw) (f : String) :
    (addFixture st f).backend = st.backend := by
  rw [addFixture]; split <;> rfl

theorem addFixture_ipset (st : RemoteFw) (f : String) :
    (addFixture st f).ipsetAvailable = st.ipsetAvailable := by
  rw [addFixture]; split <;> rfl

theorem addFixtures_backend (fs : List String) (st : RemoteFw) :
    (addFixtures st fs).backend = st.backend := by
  induction fs generalizing st with
  | nil => rfl
  | cons f rest ih =>
    simp only [addFixtures, List.foldl_cons] at ih ⊢
    rw [ih, addFixture_backend]

theorem addFixtures_ipset (fs : List String) (st : RemoteFw) :
    (addFixtures st fs).ipsetAvailable = st.ipsetAvailable := by
  induction fs generalizing st with
  | nil => rfl
  | cons f rest ih =>
    simp only [addFixtures, List.foldl_cons] at ih ⊢
    rw [ih, addFixture_ipset]

theorem addFixture_contains_self (st : RemoteFw) (f : String) :
    (addFixture st f).fixtures.contains f = true := by
  rw [addFixture]
  split
  · next h => exact h
  · simp

theorem addFixture_contains_mono (st : RemoteFw) (f g : String)
    (h : st.fixtures.contains g = true) :
    (addFixture st f).fixtures.contains g = true := by
  rw [addFixture]
  split
  · exact h
  · have hmem : g ∈ st.fixtures := by simpa using h
    have hmem2 : g ∈ st.fixtures ++ [f] := List.mem_append_left _ hmem
    simpa using hmem2

theorem addFixtures_contains_mono (fs : List String) (st : RemoteFw) (g : String)
    (h : st.fixtures.contains g = true) :
    (addFixtures st fs).fixtures.contains g = true := by
  induction fs generalizing st with
  | nil => exact h
  | cons f rest ih =>
    simp only [addFixtures, List.foldl_cons] at ih ⊢
    exact ih _ (addFixture_contains_mono _ _ _ h)

theorem addFixtures_contains_of_mem (fs : List String) (st : RemoteFw)
    (f : String) (h : f ∈ fs) :
    (addFixtures st fs).fixtures.contains f = true := by
  induction fs generalizing st with
  | nil => cases h
  | cons g rest ih =>
    simp only [addFixtures, List.foldl_cons] at ih ⊢
    rcases List.mem_cons.mp h with rfl | hmem
    · have := addFixture_contains_self st f
      exact addFixtures_contains_mono rest _ _ this
    · exact ih _ hmem

theorem verify_success_ipt (remote : RemoteFw)
    (hb : remote.backend = FwBackend.iptables)
    (hi : remote.ipsetAvailable = true) :
    (verifyScript (applyEnsureScript remote)).1 = true := by
  rw [applyEnsureScript, hb, if_pos hi]
  have hback := addFixtures_backend (ensureFixturesIpt remote.hasDockerUser) remote
  have hips := addFixtures_ipset (ensureFixturesIpt remote.hasDockerUser) remote
  have hset : (addFixtures remote (ensureFixturesIpt remote.hasDockerUser)).fixtures.contains
      "set:m1m_guardian" = true := by
    apply addFixtures_contains_of_mem
    rw [ensureFixturesIpt]
    simp
  have hvis : iptRulesVisible (addFixtures remote (ensureFixturesIpt remote.hasDockerUser)) = true := by
    rw [iptRulesVisible, List.any_eq_true]
    by_cases hd : remote.hasDockerUser
    · refine ⟨"ipt4:DOCKER-USER:tcp-reject", by simp [iptChainRules4], ?_⟩
      apply addFixtures_contains_of_mem
      rw [ensureFixturesIpt, hd]
      simp [iptChainRules4, iptChainRules6]
    · refine ⟨"ipt4:INPUT:tcp-reject", by simp [iptChainRules4], ?_⟩
      apply addFixtures_contains_of_mem
      rw [ensureFixturesIpt, if_neg hd]
      simp [iptChainRules4, iptChainRules6]
  rw [verifyScript]
  rw [hback, hb]
  rw [hips, hi, hset, hvis]
  simp

theorem verify_success_nft (remote : RemoteFw)
    (hb : remote.backend = FwBackend.nft) :
    (verifyScript (applyEnsureScript remote)).1 = true := by
  rw [applyEnsureScript, hb]
  have hback := addFixtures_backend (ensureFixturesNft remote.hasDockerUser) remote
  have hset : (addFixtures remote (ensureFixturesNft remote.hasDockerUser)).fixtures.contains
      "set:m1m_guardian" = true := by
    apply addFixtures_contains_of_mem
    rw [ensureFixturesNft]
    simp
  have hvis : nftRulesVisible (addFixtures remote (ensureFixturesNft remote.hasDockerUser)) = true := by
    rw [nftRulesVisible, List.any_eq_true]
    by_cases hd : remote.hasDockerUser
    · refine ⟨"nft4:DOCKER-USER:tcp-reject", by simp [nftChainRules], ?_⟩
      apply addFixtures_contains_of_mem
      rw [ensureFixturesNft, hd]
      simp [nftChainRules]
    · refine ⟨"nft4:INPUT:tcp-reject", by simp [nftChainRules], ?_⟩
      apply addFixtures_contains_of_mem
      rw [ensureFixturesNft, if_neg hd]
      simp [nftChainRules]
  rw [verifyScript]
  rw [hback, hb]
  rw [hset, hvis]
  simp

/-- After the ensure script runs, verification fails only when no usable
backend exists, in which case neither script changed the node. -/
theorem verify_failure_unchanged (remote : RemoteFw)
    (h : (verifyScript (applyEnsureScript remote)).1 = false) :
    applyEnsureScript remote = remote ∧
      (verifyScript (applyEnsureScript remote)).2 = remote := by
  cases hb : remote.backend with
  | iptables =>
    by_cases hi : remote.ipsetAvailable
    · rw [verify_success_ipt remote hb (by simpa using hi)] at h
      cases h
    · have hi' : remote.ipsetAvailable = false := by simpa using hi
      have happ : applyEnsureScript remote = remote := by
        rw [applyEnsureScript, hb, if_neg hi]
      refine ⟨happ, ?_⟩
      rw [happ, verifyScript]
      simp [hb, hi']
  | nft =>
    rw [verify_success_nft remote hb] at h
    cases h
  | noBackend =>
    have happ : applyEnsureScript remote = remote := by
      rw [applyEnsureScript, hb]
    refine ⟨happ, ?_⟩
    rw [happ, verifyScript, hb]

theorem ensure_rule_cached_skip (cache : List String) (key : String)
    (remote : RemoteFw) (h : key ∈ cache) :
    ensure_rule cache key false remote = (cache, remote, []) := by
  rw [ensure_rule, if_pos (by simpa using h)]

theorem ensureIter_fixed (key : String) (m : Nat) (c : List String)
    (r : RemoteFw) (h1 : (ensure_rule c key false r).1 = c)
    (h2 : (ensure_rule c key false r).2.1 = r) :
    ensureIter key m (c, r) = (c, r) := by
  induction m with
  | zero => rfl
  | succ k ih =>
    rw [ensureIter]
    simp only [h1, h2]
    exact ih

/-- **C8.** `ensure_rule` is idempotent and its cache records only verified
hosts: a non-forced call on a cached host performs no remote work and
changes nothing; an executing call caches the host exactly when the
verification pass reports success; a host whose verification fails is left
uncached with the remote state untouched (so the next call retries from
scratch); and `n ≥ 1` consecutive calls leave the same final remote rule
state as one call. -/
theorem ensure_rule_idempotent_cache (cache : List String) (key : String)
    (remote : RemoteFw) (n : Nat) (hn : 1 ≤ n) :
    (key ∈ cache → ensure_rule cache key false remote = (cache, remote, [])) ∧
    (key ∉ cache → (verifyScript (applyEnsureScript remote)).1 = true →
       ensure_rule cache key false remote
         = (cacheAdd cache key, (verifyScript (applyEnsureScript remote)).2,
             [EnsureEvent.runEnsureScript, EnsureEvent.runVerifyScript]) ∧
         key ∈ (ensure_rule cache key false remote).1) ∧
    (key ∉ cache → (verifyScript (applyEnsureScript remote)).1 = false →
       ensure_rule cache key false remote
         = (cache, remote, [EnsureEvent.runEnsureScript, EnsureEvent.runVerifyScript])) ∧
    (ensureIter key n (cache, remote)).2 = (ensureIter key 1 (cache, remote)).2 := by
  have hexec : key ∉ cache →
      ensure_rule cache key false remote
        = (if (verifyScript (applyEnsureScript remote)).1 then cacheAdd cache key else cache,
           (verifyScript (applyEnsureScript remote)).2,
           [EnsureEvent.runEnsureScript, EnsureEvent.runVerifyScript]) := by
    intro hnot
    rw [ensure_rule, if_neg (by simpa using hnot)]
    split
    · next hv => rw [if_pos hv]
    · next hv => rw [if_neg hv]
  refine ⟨ensure_rule_cached_skip cache key remote, ?_, ?_, ?_⟩
  · intro hnot hv
    rw [hexec hnot, if_pos hv]
    exact ⟨rfl, self_mem_cacheAdd _ _⟩
  · intro hnot hv
    rw [hexec hnot, if_neg (by simp [hv]), (verify_failure_unchanged remote hv).2]
  · by_cases hc : key ∈ cache
    · have hfix := ensureIter_fixed key
      have h1 := ensure_rule_cached_skip cache key remote hc
      obtain ⟨k, rfl⟩ : ∃ k, n = k + 1 := ⟨n - 1, by omega⟩
      rw [hfix (k + 1) cache remote (by rw [h1]) (by rw [h1]),
        hfix 1 cache remote (by rw [h1]) (by rw [h1])]
    · obtain ⟨k, rfl⟩ : ∃ k, n = k + 1 := ⟨n - 1, by omega⟩
      by_cases hv : (verifyScript (applyEnsureScript remote)).1 = true
      · have heq := hexec hc
        rw [if_pos hv] at heq
        have hcached : key ∈ cacheAdd cache key := self_mem_cacheAdd _ _
        have hskip := ensure_rule_cached_skip (cacheAdd cache key) key
          (verifyScript (applyEnsureScript remote)).2 hcached
        rw [ensureIter, ensureIter]
        simp only [heq]
        rw [ensureIter_fixed key k _ _ (by rw [hskip]) (by rw [hskip])]
        rfl
      · have heq := hexec hc
        rw [if_neg (by simpa using hv),
          (verify_failure_unchanged remote (by simpa using hv)).2] at heq
        rw [ensureIter_fixed key (k + 1) cache remote (by rw [heq]) (by rw [heq]),
          ensureIter_fixed key 1 cache remote (by rw [heq]) (by rw [heq])]

/-- Witness for C8 at a concrete nftables node. -/
theorem ensure_rule_idempotent_cache_witness :
    ("n1:22" ∈ ([] : List String) →
       ensure_rule [] "n1:22" false (RemoteFw.mk FwBackend.nft false true [])
         = ([], RemoteFw.mk FwBackend.nft false true [], [])) ∧
    ("n1:22" ∉ ([] : List String) →
       (verifyScript (applyEnsureScript (RemoteFw.mk FwBackend.nft false true []))).1 = true →
       ensure_rule [] "n1:22" false (RemoteFw.mk FwBackend.nft false true [])
         = (cacheAdd [] "n1:22",
             (verifyScript (applyEnsureScript (RemoteFw.mk FwBackend.nft false true []))).2,
             [EnsureEvent.runEnsureScript, EnsureEvent.runVerifyScript]) ∧
         "n1:22" ∈ (ensure_rule [] "n1:22" false (RemoteFw.mk FwBackend.nft false true [])).1) ∧
    ("n1:22" ∉ ([] : List String) →
       (verifyScript (applyEnsureScript (RemoteFw.mk FwBackend.nft false true []))).1 = false →
       ensure_rule [] "n1:22" false (RemoteFw.mk FwBackend.nft false true [])
         = ([], RemoteFw.mk FwBackend.nft false true [],
             [EnsureEvent.runEnsureScript, EnsureEvent.runVerifyScript])) ∧
    (ensureIter "n1:22" 3 ([], RemoteFw.mk FwBackend.nft false true [])).2
      = (ensureIter "n1:22" 1 ([], RemoteFw.mk FwBackend.nft false true [])).2 :=
  ensure_rule_idempotent_cache [] "n1:22" (RemoteFw.mk FwBackend.nft false true []) 3
    (by decide)

/-! ### C6 — store failure: return value vs. logging rate -/

/-- **C6 (amended).** When the backing store times out or is unreachable,
`add_ip` returns `([], False)` instead of raising — but it logs one warning
per failing call (store.py:72-77 logs unconditionally).  The
once-per-minute rate limit the claim describes is implemented only in
`Store._safe_execute` (store.py:22-43), which `add_ip` does not use: two
logged `_safe_execute` failures are always more than 60 seconds apart. -/
theorem add_ip_failure_behaviour (outcome : RedisFailure) (s : ZSet)
    (ip : String) (limit now : Nat) (st : StoreLogState) (now1 now2 : Nat)
    (e1 e2 : RedisFailure) (d1 d2 : Bool)
    (h1 : (safe_execute st now1 (Except.error e1) d1).2.2 ≠ [])
    (h2 : (safe_execute (safe_execute st now1 (Except.error e1) d1).2.1 now2
        (Except.error e2) d2).2.2 ≠ []) :
    (add_ip_run (some outcome) s ip limit now).1 = ([], false) ∧
    (add_ip_run (some outcome) s ip limit now).2.1 = s ∧
    (add_ip_run (some outcome) s ip limit now).2.2 = [StoreLogEvent.addIpWarn] ∧
    60 < now2 - now1 := by
  refine ⟨rfl, rfl, rfl, ?_⟩
  by_cases hc1 : 60 < now1 - st.lastErrorLog
  · have hst : (safe_execute st now1 (Except.error e1) d1).2.1
        = StoreLogState.mk now1 := by
      rw [safe_execute, if_pos hc1]
    rw [hst] at h2
    by_cases hc2 : 60 < now2 - now1
    · exact hc2
    · exfalso
      apply h2
      rw [safe_execute, if_neg hc2]
  · exfalso
    apply h1
    rw [safe_execute, if_neg hc1]

/-- **C6 counterexample.** Two failing `add_ip` calls one second apart each
emit a warning: two logs within one minute, contradicting "logged at most
once per minute" as stated. -/
theorem add_ip_failure_logging_counterexample :
    ((add_ip_run (some RedisFailure.timeout) [] "1.2.3.4" 1 0).2.2
        ++ (add_ip_run (some RedisFailure.timeout)
              (add_ip_run (some RedisFailure.timeout) [] "1.2.3.4" 1 0).2.1
              "1.2.3.4" 1 1).2.2).length = 2 ∧
    ¬ (((add_ip_run (some RedisFailure.timeout) [] "1.2.3.4" 1 0).2.2
        ++ (add_ip_run (some RedisFailure.timeout)
              (add_ip_run (some RedisFailure.timeout) [] "1.2.3.4" 1 0).2.1
              "1.2.3.4" 1 1).2.2).length ≤ 1) := by decide

/-- Witness for C6 with a concrete failing call and two logged
`_safe_execute` failures. -/
theorem add_ip_failure_behaviour_witness :
    (add_ip_run (some RedisFailure.timeout) [] "1.2.3.4" 3 5).1 = ([], false) ∧
    (add_ip_run (some RedisFailure.timeout) [] "1.2.3.4" 3 5).2.1 = [] ∧
    (add_ip_run (some RedisFailure.timeout) [] "1.2.3.4" 3 5).2.2
      = [StoreLogEvent.addIpWarn] ∧
    60 < 200 - 100 :=
  add_ip_failure_behaviour RedisFailure.timeout [] "1.2.3.4" 3 5
    (StoreLogState.mk 0) 100 200 RedisFailure.timeout RedisFailure.connError
    false false (by decide) (by decide)

/-! ### Concrete address-family lemmas (used by the worker-slot traces) -/

theorem digitChar_facts (d : Nat) (hd : d < 10) :
    isDigitChar (digitChar d) = true ∧ digitChar d ≠ '.' ∧
      digitVal (digitChar d) = d := by
  interval_cases d <;> refine ⟨by decide, by decide, by decide⟩

theorem digitChar_ne_zero (d : Nat) (h1 : 1 ≤ d) (hd : d < 10) :
    (digitChar d == '0') = false := by
  interval_cases d <;> decide

theorem octetStr_spec (n : Nat) (hn : n < 256) :
    octetOk (octetStr n) = true ∧ decValue (octetStr n) = n ∧
      '.' ∉ octetStr n := by
  rw [octetStr]
  by_cases h10 : n < 10
  · rw [if_pos h10]
    obtain ⟨hd, hdot, hval⟩ := digitChar_facts n h10
    refine ⟨?_, ?_, ?_⟩
    · simp [octetOk, decValue, hd, hval]
      omega
    · simp [decValue, hval]
    · simp
      exact fun h => hdot h.symm
  · rw [if_neg h10]
    by_cases h100 : n < 100
    · rw [if_pos h100]
      obtain ⟨hd1, hdot1, hval1⟩ := digitChar_facts (n / 10) (by omega)
      obtain ⟨hd2, hdot2, hval2⟩ := digitChar_facts (n % 10) (by omega)
      have hz : (digitChar (n / 10) == '0') = false :=
        digitChar_ne_zero _ (by omega) (by omega)
      refine ⟨?_, ?_, ?_⟩
      · simp [octetOk, decValue, hd1, hd2, hval1, hval2, hz]
        omega
      · simp [decValue, hval1, hval2]
        omega
      · simp
        exact ⟨fun h => hdot1 h.symm, fun h => hdot2 h.symm⟩
    · rw [if_neg h100]
      obtain ⟨hd1, hdot1, hval1⟩ := digitChar_facts (n / 100) (by omega)
      obtain ⟨hd2, hdot2, hval2⟩ := digitChar_facts (n / 10 % 10) (by omega)
      obtain ⟨hd3, hdot3, hval3⟩ := digitChar_facts (n % 10) (by omega)
      have hz : (digitChar (n / 100) == '0') = false :=
        digitChar_ne_zero _ (by omega) (by omega)
      refine ⟨?_, ?_, ?_⟩
      · simp [octetOk, decValue, hd1, hd2, hd3, hval1, hval2, hval3, hz]
        omega
      · simp [decValue, hval1, hval2, hval3]
        omega
      · simp
        exact ⟨fun h => hdot1 h.symm, fun h => hdot2 h.symm, fun h => hdot3 h.symm⟩

theorem splitSep_no_sep (sep : Char) (x : List Char) (hx : sep ∉ x) :
    splitSep sep x = [x] := by
  induction x with
  | nil => rfl
  | cons c rest ih =>
    have hc : ¬ (c = sep) := fun h => hx (h ▸ List.mem_cons_self c rest)
    have hrest : sep ∉ rest := fun h => hx (List.mem_cons_of_mem _ h)
    rw [splitSep, if_neg hc, ih hrest]

theorem splitSep_sep_append (sep : Char) (x r : List Char) (hx : sep ∉ x) :
    splitSep sep (x ++ sep :: r) = x :: splitSep sep r := by
  induction x with
  | nil => rw [List.nil_append, splitSep, if_pos rfl]
  | cons c rest ih =>
    have hc : ¬ (c = sep) := fun h => hx (h ▸ List.mem_cons_self c rest)
    have hrest : sep ∉ rest := fun h => hx (List.mem_cons_of_mem _ h)
    rw [List.cons_append, splitSep, if_neg hc, ih hrest]

theorem sep_split_unique (sep : Char) (x : List Char) :
    ∀ (y r r' : List Char), sep ∉ x → sep ∉ y →
      x ++ sep :: r = y ++ sep :: r' → x = y ∧ r = r' := by
  induction x with
  | nil =>
    intro y r r' _ hy heq
    cases y with
    | nil => simpa using heq
    | cons c cs =>
      simp only [List.nil_append, List.cons_append, List.cons.injEq] at heq
      exact absurd (heq.1 ▸ List.mem_cons_self c cs) hy
  | cons c cs ih =>
    intro y r r' hx hy heq
    cases y with
    | nil =>
      simp only [List.cons_append, List.nil_append, List.cons.injEq] at heq
      exact absurd (heq.1 ▸ List.mem_cons_self c cs) hx
    | cons d ds =>
      simp only [List.cons_append, List.cons.injEq] at heq
      obtain ⟨rfl, heq2⟩ := heq
      have hxs : sep ∉ cs := fun h => hx (List.mem_cons_of_mem _ h)
      have hys : sep ∉ ds := fun h => hy (List.mem_cons_of_mem _ h)
      obtain ⟨h1, h2⟩ := ih ds r r' hxs hys heq2
      exact ⟨by rw [h1], h2⟩

theorem ipOf_data (i : Nat) :
    (ipOf i).data
      = ['1', '0', '.', '1', '.'] ++ octetStr (i / 256)
          ++ '.' :: octetStr (i % 256) := rfl

theorem splitSep_ipOf (i : Nat) (hi : i < 65536) :
    splitSep '.' (ipOf i).data
      = [['1', '0'], ['1'], octetStr (i / 256), octetStr (i % 256)] := by
  obtain ⟨_, _, hdot1⟩ := octetStr_spec (i / 256) (by omega)
  obtain ⟨_, _, hdot2⟩ := octetStr_spec (i % 256) (by omega)
  have hshape : (ipOf i).data
      = ['1', '0'] ++ '.' :: (['1'] ++ '.' ::
          (octetStr (i / 256) ++ '.' :: octetStr (i % 256))) := by
    rw [ipOf_data]
    simp
  rw [hshape, splitSep_sep_append '.' ['1', '0'] _ (by decide),
    splitSep_sep_append '.' ['1'] _ (by decide),
    splitSep_sep_append '.' _ _ hdot1,
    splitSep_no_sep '.' _ hdot2]

theorem isValidIP_ipOf (i : Nat) (hi : i < 65536) :
    isValidIP (ipOf i) = true := by
  obtain ⟨hok1, _, _⟩ := octetStr_spec (i / 256) (by omega)
  obtain ⟨hok2, _, _⟩ := octetStr_spec (i % 256) (by omega)
  have h4 : ipv4Ok (ipOf i).data = true := by
    simp only [ipv4Ok, splitSep_ipOf i hi]
    simp [hok1, hok2]
    refine ⟨by decide, by decide⟩
  simp [isValidIP, h4]

theorem ipOf_inj (i j : Nat) (hi : i < 65536) (hj : j < 65536)
    (h : ipOf i = ipOf j) : i = j := by
  obtain ⟨_, hval1i, hdot1i⟩ := octetStr_spec (i / 256) (by omega)
  obtain ⟨_, hval2i, _⟩ := octetStr_spec (i % 256) (by omega)
  obtain ⟨_, hval1j, hdot1j⟩ := octetStr_spec (j / 256) (by omega)
  obtain ⟨_, hval2j, _⟩ := octetStr_spec (j % 256) (by omega)
  have hd : (ipOf i).data = (ipOf j).data := by rw [h]
  rw [ipOf_data, ipOf_data] at hd
  simp only [List.cons_append, List.nil_append, List.cons.injEq, true_and] at hd
  obtain ⟨hA, hB⟩ := sep_split_unique '.' _ _ _ _ hdot1i hdot1j hd
  have e1 : i / 256 = j / 256 := by rw [← hval1i, ← hval1j, hA]
  have e2 : i % 256 = j % 256 := by rw [← hval2i, ← hval2j, hB]
  omega

/-! ### Worker-slot composition lemmas -/

theorem pending_any_iff (pend : Pending) (ip : String) :
    pend.any (fun p => p.1 == ip) = true ↔ ip ∈ pendingKeys pend := by
  rw [List.any_eq_true, pendingKeys]
  constructor
  · rintro ⟨p, hp, hbeq⟩
    exact List.mem_map.mpr ⟨p, hp, by simpa using hbeq⟩
  · intro hmem
    obtain ⟨p, hp, he⟩ := List.mem_map.mp hmem
    exact ⟨p, hp, by simp [he]⟩

theorem pendingSet_fresh_append (pend : Pending) (ip : String) (it : BanItem)
    (h : ip ∉ pendingKeys pend) : pendingSet pend ip it = pend ++ [(ip, it)] := by
  rw [pendingSet, if_neg]
  intro hany
  exact h ((pending_any_iff pend ip).mp hany)

theorem schedule_ban_fresh_append (st : WorkerState) (ip : String) (secs : Int)
    (now : Nat) (e : Bool) (hvalid : isValidIP ip = true)
    (hfresh : ip ∉ pendingKeys st.pending)
    (hlen : st.pending.length < MAX_PENDING) :
    schedule_ban st e ip secs now
      = (true, { st with pending := st.pending ++ [(ip, mkBanItem ip secs now)] },
          (if e then [] else [FwEvent.ensureAttempt]) ++ [FwEvent.wake]) := by
  rw [schedule_ban, if_pos hvalid, pendingLookup_eq_none _ _ hfresh]
  simp [Nat.not_le.mpr hlen]

theorem scheduleFill_appends (ips : List String) (st : WorkerState)
    (secs : Int) (now : Nat)
    (hval : ∀ ip ∈ ips, isValidIP ip = true)
    (hfresh : ∀ ip ∈ ips, ip ∉ pendingKeys st.pending)
    (hnodup : ips.Nodup)
    (hcap : st.pending.length + ips.length ≤ MAX_PENDING) :
    scheduleFill st ips secs now
      = { st with pending :=
            st.pending ++ ips.map (fun ip => (ip, mkBanItem ip secs now)) } := by
  induction ips generalizing st with
  | nil => simp [scheduleFill]
  | cons ip rest ih =>
    have hlen : st.pending.length < MAX_PENDING := by
      have := hcap
      simp only [List.length_cons] at this
      omega
    have h1 := schedule_ban_fresh_append st ip secs now true
      (hval ip (List.mem_cons_self _ _)) (hfresh ip (List.mem_cons_self _ _)) hlen
    simp only [scheduleFill, List.foldl_cons, h1]
    have hkeys : pendingKeys (st.pending ++ [(ip, mkBanItem ip secs now)])
        = pendingKeys st.pending ++ [ip] := by
      rw [pendingKeys, List.map_append, pendingKeys]
      rfl
    have hih := ih { st with pending := st.pending ++ [(ip, mkBanItem ip secs now)] }
      (fun x hx => hval x (List.mem_cons_of_mem _ hx))
      (fun x hx => by
        rw [hkeys]
        intro hmem
        rcases List.mem_append.mp hmem with hm | hm
        · exact hfresh x (List.mem_cons_of_mem _ hx) hm
        · have hxip : x = ip := by simpa using hm
          rw [List.nodup_cons] at hnodup
          exact hnodup.1 (hxip ▸ hx))
      (List.nodup_cons.mp hnodup).2
      (by
        simp only [List.length_append, List.length_cons, List.length_nil] at hcap ⊢
        omega)
    simp only [scheduleFill] at hih
    rw [hih]
    simp [List.append_assoc]

theorem reinsert_fresh (items : List BanItem) (pend : Pending)
    (hfresh : ∀ it ∈ items, it.ip ∉ pendingKeys pend)
    (hnodup : (items.map BanItem.ip).Nodup) :
    reinsert pend items = pend ++ items.map (fun it => (it.ip, it)) := by
  induction items generalizing pend with
  | nil => simp [reinsert]
  | cons it rest ih =>
    have hf : it.ip ∉ pendingKeys pend := hfresh it (List.mem_cons_self _ _)
    simp only [reinsert, List.foldl_cons, pendingLookup_eq_none _ _ hf,
      pendingSet_fresh_append _ _ _ hf]
    have hkeys : pendingKeys (pend ++ [(it.ip, it)])
        = pendingKeys pend ++ [it.ip] := by
      rw [pendingKeys, List.map_append, pendingKeys]
      rfl
    rw [List.map_cons, List.nodup_cons] at hnodup
    have hih := ih (pend ++ [(it.ip, it)])
      (fun x hx => by
        rw [hkeys]
        intro hmem
        rcases List.mem_append.mp hmem with hm | hm
        · exact hfresh x (List.mem_cons_of_mem _ hx) hm
        · have : x.ip = it.ip := by simpa using hm
          exact hnodup.1 (this ▸ List.mem_map_of_mem BanItem.ip hx))
      hnodup.2
    simp only [reinsert] at hih
    rw [hih]
    simp [List.append_assoc]

theorem drainN_concat_len (k : Nat) : ∀ (l1 l2 : Pending), l2.length = k →
    drainN k (l1 ++ l2) = (l2.reverse.map (fun p => p.2), l1) := by
  induction k with
  | zero =>
    intro l1 l2 h
    have h2 : l2 = [] := List.eq_nil_of_length_eq_zero h
    subst h2
    simp [drainN]
  | succ n ih =>
    intro l1 l2 h
    obtain ⟨l2p, b, rfl⟩ : ∃ l2p b, l2 = l2p ++ [b] := by
      rcases List.eq_nil_or_concat l2 with rfl | ⟨l2p, b, hc⟩
      · simp at h
      · exact ⟨l2p, b, by rw [hc, List.concat_eq_append]⟩
    have hpop : popitem (l1 ++ (l2p ++ [b])) = some (b, l1 ++ l2p) := by
      rw [popitem, ← List.append_assoc, List.getLast?_concat, List.dropLast_concat]
    have hlen : l2p.length = n := by
      simp only [List.length_append, List.length_singleton] at h
      omega
    simp only [drainN, hpop]
    rw [ih l1 l2p hlen]
    simp [List.reverse_append]

theorem drainBatch_ge (pend : Pending) (hge : MAX_BATCH ≤ pend.length) :
    drainBatch pend
      = ((pend.drop (pend.length - MAX_BATCH)).reverse.map (fun p => p.2),
         pend.take (pend.length - MAX_BATCH)) := by
  have hd := drainN_concat_len MAX_BATCH (pend.take (pend.length - MAX_BATCH))
    (pend.drop (pend.length - MAX_BATCH)) (by rw [List.length_drop]; omega)
  rw [List.take_append_drop] at hd
  rw [drainBatch, min_eq_left hge, hd]

theorem drainBatch_le (pend : Pending) (hle : pend.length ≤ MAX_BATCH) :
    drainBatch pend = (pend.reverse.map (fun p => p.2), []) := by
  have hd := drainN_concat_len pend.length [] pend rfl
  rw [List.nil_append] at hd
  rw [drainBatch, min_eq_right hle, hd]

/-! ### fillIps facts -/

theorem fillIps_length (lo n : Nat) : (fillIps lo n).length = n := by
  simp [fillIps]

theorem fillIps_valid (lo n : Nat) (hbound : lo + n ≤ 65536) :
    ∀ ip ∈ fillIps lo n, isValidIP ip = true := by
  intro ip hip
  obtain ⟨j, hj, rfl⟩ := List.mem_map.mp hip
  rw [List.mem_range] at hj
  exact isValidIP_ipOf _ (by omega)

theorem fillIps_nodup (lo n : Nat) (hbound : lo + n ≤ 65536) :
    (fillIps lo n).Nodup := by
  rw [fillIps]
  refine (List.nodup_range n).map_on ?_
  intro x hx y hy hxy
  rw [List.mem_range] at hx hy
  have := ipOf_inj (lo + x) (lo + y) (by omega) (by omega) hxy
  omega

theorem mem_fillIps_iff (lo n : Nat) (hbound : lo + n ≤ 65536)
    (i : Nat) (hi : i < 65536) :
    ipOf i ∈ fillIps lo n ↔ lo ≤ i ∧ i < lo + n := by
  rw [fillIps]
  constructor
  · intro hmem
    obtain ⟨j, hj, he⟩ := List.mem_map.mp hmem
    rw [List.mem_range] at hj
    have := ipOf_inj (lo + j) i (by omega) hi he
    omega
  · intro ⟨h1, h2⟩
    exact List.mem_map.mpr ⟨i - lo, List.mem_range.mpr (by omega), by
      congr 1
      omega⟩

theorem fillIps_append (lo k m : Nat) :
    fillIps lo (k + m) = fillIps lo k ++ fillIps (lo + k) m := by
  rw [fillIps, List.range_add, List.map_append, fillIps, fillIps, List.map_map]
  congr 1
  apply List.map_congr_left
  intro j _
  show ipOf (lo + (k + j)) = ipOf (lo + k + j)
  rw [Nat.add_assoc]

theorem fillPend_eq (lo n now : Nat) :
    fillPend lo n now = (fillIps lo n).map (fun ip => (ip, mkBanItem ip 600 now)) := rfl

theorem fillPend_keys (lo n now : Nat) :
    pendingKeys (fillPend lo n now) = fillIps lo n := by
  rw [fillPend, pendingKeys, List.map_map]
  exact List.map_id _

theorem fillPend_length (lo n now : Nat) : (fillPend lo n now).length = n := by
  rw [fillPend, List.length_map, fillIps_length]

/-! ### C5 — worker drain order -/

/-- **C5 (amended).** The worker drains the pending slot with
`dict.popitem`, i.e. from the most-recently-enqueued end (LIFO), not in
enqueue order: one drain takes the last `min(500, len)` entries, most
recent first, and leaves the earliest-enqueued entries for later batches.
When at most 500 entries are pending they all go into the same single
batch; with more than 500 pending, an earlier-enqueued address can be
submitted strictly after a later one (see the counterexample). -/
theorem worker_drains_lifo (pend : Pending) :
    (MAX_BATCH ≤ pend.length →
       drainBatch pend
         = ((pend.drop (pend.length - MAX_BATCH)).reverse.map (fun p => p.2),
            pend.take (pend.length - MAX_BATCH))) ∧
    (pend.length ≤ MAX_BATCH →
       drainBatch pend = (pend.reverse.map (fun p => p.2), [])) :=
  ⟨fun hge => drainBatch_ge pend hge, fun hle => drainBatch_le pend hle⟩

/-- Witness for C5 at a one-entry slot. -/
theorem worker_drains_lifo_witness :
    (MAX_BATCH ≤ [(ipOf 0, mkBanItem (ipOf 0) 600 0)].length →
       drainBatch [(ipOf 0, mkBanItem (ipOf 0) 600 0)]
         = (([(ipOf 0, mkBanItem (ipOf 0) 600 0)].drop
               ([(ipOf 0, mkBanItem (ipOf 0) 600 0)].length - MAX_BATCH)).reverse.map
                 (fun p => p.2),
            [(ipOf 0, mkBanItem (ipOf 0) 600 0)].take
              ([(ipOf 0, mkBanItem (ipOf 0) 600 0)].length - MAX_BATCH))) ∧
    ([(ipOf 0, mkBanItem (ipOf 0) 600 0)].length ≤ MAX_BATCH →
       drainBatch [(ipOf 0, mkBanItem (ipOf 0) 600 0)]
         = ([(ipOf 0, mkBanItem (ipOf 0) 600 0)].reverse.map (fun p => p.2), [])) :=
  worker_drains_lifo [(ipOf 0, mkBanItem (ipOf 0) 600 0)]

/-- **C5 counterexample.** With 501 pending entries enqueued in index
order, the first batch contains the second-enqueued address but not the
first-enqueued one; the first-enqueued address is only submitted in the
second batch.  So "a enqueued before b implies a is batched no later than
b" is false on the code. -/
theorem worker_drain_order_counterexample :
    ipOf 1 ∈ drain501.1.map BanItem.ip ∧
    ipOf 0 ∉ drain501.1.map BanItem.ip ∧
    ipOf 0 ∈ drain501b.1.map BanItem.ip := by
  have hsplit : pend501
      = [(ipOf 0, mkBanItem (ipOf 0) 600 0)]
        ++ (List.range 500).map
            (fun j => (ipOf (1 + j), mkBanItem (ipOf (1 + j)) 600 (1 + j))) := by
    rw [pend501, show (501 : Nat) = 1 + 500 from rfl, List.range_add,
      List.map_append, List.map_map]
    rfl
  have hlen : pend501.length = 501 := by
    rw [pend501, List.length_map, List.length_range]
  have hd : drainBatch pend501
      = ((pend501.drop 1).reverse.map (fun p => p.2), pend501.take 1) := by
    have := drainBatch_ge pend501 (by rw [hlen]; decide)
    rw [hlen] at this
    exact this
  have htake : pend501.take 1 = [(ipOf 0, mkBanItem (ipOf 0) 600 0)] := by
    rw [hsplit]
    rfl
  have hdrop : pend501.drop 1
      = (List.range 500).map
          (fun j => (ipOf (1 + j), mkBanItem (ipOf (1 + j)) 600 (1 + j))) := by
    rw [hsplit]
    rfl
  have hd1 : drain501.1 = (pend501.drop 1).reverse.map (fun p => p.2) := by
    show (drainBatch pend501).1 = _
    rw [hd]
  have hips : drain501.1.map BanItem.ip
      = ((List.range 500).map (fun j => ipOf (1 + j))).reverse := by
    rw [hd1, hdrop, List.map_reverse, List.map_reverse, List.map_map, List.map_map]
    congr 1
  refine ⟨?_, ?_, ?_⟩
  · rw [hips, List.mem_reverse]
    exact List.mem_map.mpr ⟨0, List.mem_range.mpr (by omega), rfl⟩
  · rw [hips, List.mem_reverse]
    intro hmem
    obtain ⟨j, hj, he⟩ := List.mem_map.mp hmem
    rw [List.mem_range] at hj
    have := ipOf_inj (1 + j) 0 (by omega) (by omega) he
    omega
  · have hrest : drain501.2 = [(ipOf 0, mkBanItem (ipOf 0) 600 0)] := by
      show (drainBatch pend501).2 = _
      rw [hd, htake]
    have hb : drain501b.1 = [mkBanItem (ipOf 0) 600 0] := by
      show (drainBatch drain501.2).1 = _
      rw [hrest, drainBatch_le _ (by decide)]
      rfl
    rw [hb]
    show ipOf 0 ∈ [(mkBanItem (ipOf 0) 600 0).ip]
    rw [show (mkBanItem (ipOf 0) 600 0).ip = ipOf 0 from rfl]
    exact List.mem_singleton.mpr rfl

/-! ### C3 — pending-slot cap behaviour -/

theorem pendingLookup_any (pend : Pending) (ip : String) (cur : BanItem)
    (h : pendingLookup pend ip = some cur) :
    pend.any (fun p => p.1 == ip) = true := by
  induction pend with
  | nil => cases h
  | cons q rest ih =>
    by_cases hq : (q.1 == ip) = true
    · simp [List.any_cons, hq]
    · have hq' : (q.1 == ip) = false := by simpa using hq
      rw [pendingLookup, List.find?_cons_of_neg _ (by simpa using hq)] at h
      have hrest := ih (by rw [pendingLookup]; exact h)
      rw [List.any_cons, hq']
      simpa using hrest

theorem pendingKeys_append (a b : Pending) :
    pendingKeys (a ++ b) = pendingKeys a ++ pendingKeys b := by
  rw [pendingKeys, List.map_append]
  rfl

/-- **C3 (amended).** `schedule_ban` never grows the pending slot beyond
`MAX_PENDING = 20000`: at the cap a new distinct valid address is refused
with the slot unchanged, and a warning is recorded exactly when the 5-second
limiter permits (updating `last_report`); an already-pending address still
succeeds and can raise its TTL.  The cap is an invariant of `schedule_ban`
only — the failed-batch reinsertion path of `_apply_batch` has no cap check
and can push the slot up to `MAX_PENDING + MAX_BATCH` entries (see the
counterexample). -/
theorem schedule_ban_cap_behaviour (st : WorkerState) (ip : String)
    (secs : Int) (now : Nat) (ensured : Bool)
    (hcap : st.pending.length ≤ MAX_PENDING) :
    ((schedule_ban st ensured ip secs now).2.1.pending.length ≤ MAX_PENDING) ∧
    (isValidIP ip = true → ip ∉ pendingKeys st.pending →
       MAX_PENDING ≤ st.pending.length →
       (schedule_ban st ensured ip secs now).1 = false ∧
       (schedule_ban st ensured ip secs now).2.1.pending = st.pending ∧
       ((st.lastReport == 0 || decide (5 < now - st.lastReport)) = true ↔
          FwEvent.overflowWarn ∈ (schedule_ban st ensured ip secs now).2.2) ∧
       (FwEvent.overflowWarn ∈ (schedule_ban st ensured ip secs now).2.2 →
          (schedule_ban st ensured ip secs now).2.1.lastReport = now)) ∧
    (isValidIP ip = true → ∀ cur, pendingLookup st.pending ip = some cur →
       (schedule_ban st ensured ip secs now).1 = true ∧
       pendingLookup (schedule_ban st ensured ip secs now).2.1.pending ip
         = some (if cur.ttl < secs then { cur with ttl := secs } else cur)) := by
  refine ⟨?_, ?_, ?_⟩
  · by_cases hv : isValidIP ip
    · cases hlk : pendingLookup st.pending ip with
      | some cur =>
        have hany := pendingLookup_any st.pending ip cur hlk
        rw [schedule_ban, if_pos hv]
        simp only [hlk]
        show (pendingSet st.pending ip _).length ≤ MAX_PENDING
        rw [pendingSet_any_keeps _ _ _ hany, List.length_map]
        exact hcap
      | none =>
        rw [schedule_ban, if_pos hv]
        simp only [hlk]
        by_cases hge : MAX_PENDING ≤ st.pending.length
        · rw [if_pos hge]
          by_cases hw : (st.lastReport == 0 || decide (5 < now - st.lastReport)) = true
          · rw [if_pos hw]
            exact hcap
          · rw [if_neg hw]
            exact hcap
        · rw [if_neg hge]
          show (st.pending ++ [(ip, mkBanItem ip secs now)]).length ≤ MAX_PENDING
          rw [List.length_append]
          simp only [List.length_cons, List.length_nil]
          omega
    · rw [schedule_ban, if_neg hv]
      exact hcap
  · intro hv hfresh hge
    have hlk := pendingLookup_eq_none st.pending ip hfresh
    rw [schedule_ban, if_pos hv]
    simp only [hlk]
    rw [if_pos hge]
    have hnwpre : FwEvent.overflowWarn ∉ (if ensured then ([] : List FwEvent)
        else [FwEvent.ensureAttempt]) := by
      cases ensured <;> simp
    by_cases hw : (st.lastReport == 0 || decide (5 < now - st.lastReport)) = true
    · rw [if_pos hw]
      refine ⟨rfl, rfl, ?_, fun _ => rfl⟩
      constructor
      · intro _
        exact List.mem_append_right _ (List.mem_singleton.mpr rfl)
      · intro _
        exact hw
    · rw [if_neg hw]
      refine ⟨rfl, rfl, ?_, ?_⟩
      · constructor
        · intro h
          exact absurd h hw
        · intro hmem
          exact absurd hmem hnwpre
      · intro hmem
        exact absurd hmem hnwpre
  · intro hv cur hlk
    have hany := pendingLookup_any st.pending ip cur hlk
    rw [schedule_ban, if_pos hv]
    simp only [hlk]
    exact ⟨by simp, pendingLookup_pendingSet _ _ _ hany⟩

/-- Witness for C3 at the empty worker state. -/
theorem schedule_ban_cap_behaviour_witness :
    ((schedule_ban emptyWorker true "1.2.3.4" 600 7).2.1.pending.length ≤ MAX_PENDING) ∧
    (isValidIP "1.2.3.4" = true → "1.2.3.4" ∉ pendingKeys emptyWorker.pending →
       MAX_PENDING ≤ emptyWorker.pending.length →
       (schedule_ban emptyWorker true "1.2.3.4" 600 7).1 = false ∧
       (schedule_ban emptyWorker true "1.2.3.4" 600 7).2.1.pending = emptyWorker.pending ∧
       ((emptyWorker.lastReport == 0 || decide (5 < 7 - emptyWorker.lastReport)) = true ↔
          FwEvent.overflowWarn ∈ (schedule_ban emptyWorker true "1.2.3.4" 600 7).2.2) ∧
       (FwEvent.overflowWarn ∈ (schedule_ban emptyWorker true "1.2.3.4" 600 7).2.2 →
          (schedule_ban emptyWorker true "1.2.3.4" 600 7).2.1.lastReport = 7)) ∧
    (isValidIP "1.2.3.4" = true → ∀ cur,
       pendingLookup emptyWorker.pending "1.2.3.4" = some cur →
       (schedule_ban emptyWorker true "1.2.3.4" 600 7).1 = true ∧
       pendingLookup (schedule_ban emptyWorker true "1.2.3.4" 600 7).2.1.pending "1.2.3.4"
         = some (if cur.ttl < 600 then { cur with ttl := 600 } else cur)) :=
  schedule_ban_cap_behaviour emptyWorker "1.2.3.4" 600 7 true (by decide)

theorem ws_mk_pending (l : Pending) (r : Nat) :
    ({ pending := l, lastReport := r } : WorkerState).pending = l := rfl

theorem ws_with_pending (st : WorkerState) (l : Pending) :
    ({ st with pending := l } : WorkerState).pending = l := rfl

theorem pair_fst {α β : Type} (a : α) (b : β) : (a, b).1 = a := rfl

theorem pair_snd {α β : Type} (a : α) (b : β) : (a, b).2 = b := rfl

theorem fillPend_append (lo k m now : Nat) :
    fillPend lo (k + m) now = fillPend lo k now ++ fillPend (lo + k) m now := by
  rw [fillPend, fillIps_append, List.map_append]
  rfl

theorem fillPend_items_ips (lo n now : Nat) :
    ((fillPend lo n now).reverse.map (fun p => p.2)).map BanItem.ip
      = (fillIps lo n).reverse := by
  rw [fillPend_eq, List.map_reverse, List.map_reverse, List.map_map, List.map_map]
  congr 1
  exact (List.map_congr_left (fun a _ => rfl)).trans (List.map_id _)

/-- **C3 counterexample.** The slot-cardinality bound "never exceeds
20,000" fails for the program as a whole: fill the slot to the cap through
`schedule_ban`, let the worker drain a 500-entry batch, accept 500 further
distinct addresses (back at the cap), then let the failed batch re-insert
its items (`_apply_batch`, firewall.py:736-742, no cap check) — the slot
now holds 20,500 entries. -/
theorem pending_cap_overflow_counterexample :
    MAX_PENDING < overflowFinal.length := by
  have h1 := scheduleFill_appends (fillIps 0 20000) emptyWorker 600 0
    (fillIps_valid 0 20000 (by omega))
    (fun ip _ => by simp [emptyWorker, pendingKeys])
    (fillIps_nodup 0 20000 (by omega))
    (by simp [emptyWorker, fillIps_length, MAX_PENDING])
  have hst1p : overflowStage1.pending = fillPend 0 20000 0 := by
    rw [overflowStage1, h1, ws_mk_pending,
      show emptyWorker.pending = [] from rfl, List.nil_append, fillPend_eq]
  have hsplitP : fillPend 0 20000 0 = fillPend 0 19500 0 ++ fillPend 19500 500 0 := by
    rw [show (20000 : Nat) = 19500 + 500 from rfl, fillPend_append, Nat.zero_add]
  have hlenP : (fillPend 0 20000 0).length = 20000 := fillPend_length 0 20000 0
  have hdb := drainBatch_ge (fillPend 0 20000 0) (by rw [hlenP]; decide)
  rw [hlenP, show (20000 : Nat) - MAX_BATCH = 19500 by decide] at hdb
  have hlenA : (fillPend 0 19500 0).length = 19500 := fillPend_length 0 19500 0
  have htake : (fillPend 0 20000 0).take 19500 = fillPend 0 19500 0 := by
    rw [hsplitP]
    exact List.take_left' hlenA
  have hdrop : (fillPend 0 20000 0).drop 19500 = fillPend 19500 500 0 := by
    rw [hsplitP]
    exact List.drop_left' hlenA
  rw [htake, hdrop] at hdb
  have hod : overflowDrain = drainBatch (fillPend 0 20000 0) := by
    rw [overflowDrain, hst1p]
  have hdrain1 : overflowDrain.1
      = (fillPend 19500 500 0).reverse.map (fun p => p.2) := by
    rw [hod, hdb, pair_fst]
  have hdrain2 : overflowDrain.2 = fillPend 0 19500 0 := by
    rw [hod, hdb, pair_snd]
  have hpend' : ({ overflowStage1 with pending := overflowDrain.2 } : WorkerState).pending
      = fillPend 0 19500 0 := by
    rw [ws_with_pending, hdrain2]
  have h2 := scheduleFill_appends (fillIps 20000 500)
    { overflowStage1 with pending := overflowDrain.2 } 600 1
    (fillIps_valid 20000 500 (by omega))
    (fun ip hip => by
      rw [hpend', fillPend_keys]
      obtain ⟨j, hj, he⟩ := List.mem_map.mp hip
      rw [List.mem_range] at hj
      rw [← he, mem_fillIps_iff 0 19500 (by omega) _ (by omega)]
      omega)
    (fillIps_nodup 20000 500 (by omega))
    (by rw [hpend', fillPend_length, fillIps_length]; decide)
  have hst2 : overflowStage2.pending = fillPend 0 19500 0 ++ fillPend 20000 500 1 := by
    rw [overflowStage2, h2, ws_mk_pending, hpend', ← fillPend_eq]
  have hitems_ips : overflowDrain.1.map BanItem.ip = (fillIps 19500 500).reverse := by
    rw [hdrain1, fillPend_items_ips]
  have hfinal := reinsert_fresh overflowDrain.1 overflowStage2.pending
    (fun it hit => by
      have hip : it.ip ∈ (fillIps 19500 500).reverse := by
        rw [← hitems_ips]
        exact List.mem_map_of_mem BanItem.ip hit
      rw [List.mem_reverse] at hip
      obtain ⟨j, hj, he⟩ := List.mem_map.mp hip
      rw [List.mem_range] at hj
      rw [hst2, pendingKeys_append, fillPend_keys, fillPend_keys]
      intro hmem
      rcases List.mem_append.mp hmem with hm | hm
      · rw [← he, mem_fillIps_iff 0 19500 (by omega) _ (by omega)] at hm
        omega
      · rw [← he, mem_fillIps_iff 20000 500 (by omega) _ (by omega)] at hm
        omega)
    (by
      rw [hitems_ips]
      exact List.nodup_reverse.mpr (fillIps_nodup 19500 500 (by omega)))
  have hitemslen : overflowDrain.1.length = 500 := by
    rw [hdrain1, List.length_map, List.length_reverse, fillPend_length]
  have hlenFinal : overflowFinal.length = 20500 := by
    rw [overflowFinal, hfinal, List.length_append, List.length_map, hitemslen,
      hst2, List.length_append, fillPend_length, fillPend_length]
  rw [hlenFinal]
  decide

/-! ### C1 helper lemmas: `ZADD`, `ZSCORE`, member bookkeeping -/

theorem any_key_iff (s : ZSet) (x : String) :
    s.any (fun p => p.1 == x) = true ↔ x ∈ members s := by
  simp [members, List.any_eq_true]

theorem members_zadd (s : ZSet) (ip : String) (t : Nat) :
    members (zadd s ip t)
      = if s.any (fun p => p.1 == ip) then members s else members s ++ [ip] := by
  by_cases h : s.any (fun p => p.1 == ip) = true
  · rw [if_pos h]
    rw [zadd, if_pos h]
    show (s.map _).map _ = s.map _
    rw [List.map_map]
    exact List.map_congr_left (fun p _ => by by_cases hp : p.1 = ip <;> simp [hp])
  · rw [if_neg h]
    rw [zadd, if_neg h]
    show (s ++ [(ip, t)]).map _ = s.map _ ++ [ip]
    rw [List.map_append]
    rfl

theorem zcard_zadd (s : ZSet) (ip : String) (t : Nat) :
    zcard (zadd s ip t)
      = if s.any (fun p => p.1 == ip) then zcard s else zcard s + 1 := by
  by_cases h : s.any (fun p => p.1 == ip) = true
  · rw [if_pos h, zcard, zadd, if_pos h, List.length_map]
    rfl
  · rw [if_neg h, zcard, zadd, if_neg h, List.length_append]
    rfl

theorem mem_members_zadd (s : ZSet) (ip : String) (t : Nat) (x : String)
    (hx : x ∈ members (zadd s ip t)) : x ∈ members s ∨ x = ip := by
  rw [members_zadd] at hx
  by_cases h : s.any (fun p => p.1 == ip) = true
  · rw [if_pos h] at hx
    exact Or.inl hx
  · rw [if_neg h] at hx
    rcases List.mem_append.mp hx with h1 | h1
    · exact Or.inl h1
    · simp at h1
      exact Or.inr h1

theorem mem_members_zadd_of_mem (s : ZSet) (ip : String) (t : Nat) (x : String)
    (hx : x ∈ members s) : x ∈ members (zadd s ip t) := by
  rw [members_zadd]
  split
  · exact hx
  · exact List.mem_append.mpr (Or.inl hx)

theorem self_mem_members_zadd (s : ZSet) (ip : String) (t : Nat) :
    ip ∈ members (zadd s ip t) := by
  rw [members_zadd]
  by_cases h : s.any (fun p => p.1 == ip) = true
  · rw [if_pos h]
    exact (any_key_iff s ip).mp h
  · rw [if_neg h]
    exact List.mem_append.mpr (Or.inr (by simp))

theorem goodZ_zadd (s : ZSet) (ip : String) (t : Nat) (hG : GoodZ s t) :
    GoodZ (zadd s ip t) (t + 1) := by
  obtain ⟨hm, hs, hlt⟩ := hG
  by_cases h : s.any (fun p => p.1 == ip) = true
  · rw [zadd, if_pos h]
    refine ⟨?_, ?_, ?_⟩
    · have hme : members (s.map (fun p => if p.1 == ip then (ip, t) else p))
          = members s := by
        show (s.map _).map _ = s.map _
        rw [List.map_map]
        exact List.map_congr_left (fun p _ => by by_cases hp : p.1 = ip <;> simp [hp])
      rw [hme]
      exact hm
    · have hsc : (s.map (fun p => if p.1 == ip then (ip, t) else p)).map (fun p => p.2)
          = s.map (fun p => if p.1 == ip then t else p.2) := by
        rw [List.map_map]
        exact List.map_congr_left (fun p _ => by by_cases hp : p.1 = ip <;> simp [hp])
      rw [hsc]
      have hkeys : s.Pairwise (fun p q => p.1 ≠ q.1) := List.pairwise_map.mp hm
      have hscores : s.Pairwise (fun p q => p.2 ≠ q.2) := List.pairwise_map.mp hs
      have hcomb : s.Pairwise (fun p q =>
          (if p.1 == ip then t else p.2) ≠ (if q.1 == ip then t else q.2)) := by
        refine (hkeys.and hscores).imp_of_mem ?_
        intro p q hp hq hpq
        obtain ⟨h1, h2⟩ := hpq
        have hfix : ∀ (a : String × Nat),
            (if a.1 == ip then t else a.2) = if a.1 = ip then t else a.2 :=
          fun a => by by_cases e : a.1 = ip <;> simp [e]
        rw [hfix p, hfix q]
        by_cases e1 : p.1 = ip <;> by_cases e2 : q.1 = ip
        · exact absurd (e1.trans e2.symm) h1
        · rw [if_pos e1, if_neg e2]
          exact (hlt q hq).ne'
        · rw [if_neg e1, if_pos e2]
          exact (hlt p hp).ne
        · rw [if_neg e1, if_neg e2]
          exact h2
      exact hcomb.map _ (fun a b hab => hab)
    · intro p hp
      obtain ⟨q, hq, rfl⟩ := List.mem_map.mp hp
      by_cases e : q.1 = ip
      · have he : (if q.1 == ip then ((ip, t) : String × Nat) else q).2 = t := by simp [e]
        rw [he]
        omega
      · have he : (if q.1 == ip then ((ip, t) : String × Nat) else q).2 = q.2 := by simp [e]
        rw [he]
        exact (hlt q hq).trans (Nat.lt_succ_self t)
  · rw [zadd, if_neg h]
    have hni : ip ∉ members s := fun hc => h ((any_key_iff s ip).mpr hc)
    refine ⟨?_, ?_, ?_⟩
    · show ((s ++ [(ip, t)]).map _).Nodup
      rw [List.map_append, List.nodup_append]
      refine ⟨hm, by simp, ?_⟩
      intro a ha hb
      simp at hb
      subst hb
      exact hni ha
    · show ((s ++ [(ip, t)]).map (fun p => p.2)).Nodup
      rw [List.map_append, List.nodup_append]
      refine ⟨hs, by simp, ?_⟩
      intro a ha hb
      simp at hb
      obtain ⟨q, hq, hqt⟩ := List.mem_map.mp ha
      rw [hb] at hqt
      exact absurd (hqt ▸ hlt q hq) (lt_irrefl t)
    · intro p hp
      rcases List.mem_append.mp hp with h1 | h1
      · exact (hlt p h1).trans (Nat.lt_succ_self t)
      · simp at h1
        rw [h1]
        exact Nat.lt_succ_self t

theorem zscore_mem (s : ZSet) (e : String × Nat) (hm : (members s).Nodup)
    (he : e ∈ s) : zscore s e.1 = some e.2 := by
  induction s with
  | nil => cases he
  | cons q rest ih =>
    rcases List.mem_cons.mp he with rfl | he'
    · rw [zscore, List.find?_cons_of_pos _ (by simp)]
      rfl
    · have hmc := List.nodup_cons.mp hm
      have hq : ¬ ((fun p : String × Nat => p.1 == e.1) q = true) := by
        simp
        intro hqe
        apply hmc.1
        show q.1 ∈ List.map (fun p => p.1) rest
        rw [hqe]
        exact List.mem_map_of_mem (fun p => p.1) he'
      rw [zscore, show List.find? (fun p => p.1 == e.1) (q :: rest)
        = List.find? (fun p => p.1 == e.1) rest from List.find?_cons_of_neg _ hq]
      exact ih hmc.2 he'

theorem scoreIn_mem (s : ZSet) (e : String × Nat) (hm : (members s).Nodup)
    (he : e ∈ s) : scoreIn s e.1 = e.2 := by
  rw [scoreIn, zscore_mem s e hm he]
  rfl

theorem newerCount_eq_countP (s : ZSet) (x : String) :
    newerCount s x = s.countP (fun p => scoreIn s x < p.2) := by
  rw [newerCount, List.countP_eq_length_filter]

theorem newerCount_lt_card (s : ZSet) (x : String) (hm : (members s).Nodup)
    (hx : x ∈ members s) : newerCount s x < zcard s := by
  obtain ⟨e, he, hex⟩ := List.mem_map.mp hx
  have hsc : scoreIn s x = e.2 := by
    rw [← hex]
    exact scoreIn_mem s e hm he
  rw [newerCount_eq_countP, zcard]
  have hne : s.countP (fun p => scoreIn s x < p.2) ≠ s.length := by
    intro hcon
    have h2 := List.countP_eq_length.mp hcon e he
    rw [hsc] at h2
    simp at h2
  exact lt_of_le_of_ne (List.countP_le_length _) hne

/-! ### C1 helper lemmas: the sorted view of a slot and rank bounds -/

theorem strict_sorted_sort (s : ZSet) (hs : (s.map (fun p => p.2)).Nodup) :
    (s.insertionSort zleProp).Pairwise (fun a b => a.2 < b.2) := by
  have hsorted : (s.insertionSort zleProp).Sorted zleProp :=
    List.sorted_insertionSort zleProp s
  have hperm : List.Perm (s.insertionSort zleProp) s :=
    List.perm_insertionSort zleProp s
  have hnd : ((s.insertionSort zleProp).map (fun p => p.2)).Nodup :=
    ((hperm.map (fun p => p.2)).nodup_iff).mpr hs
  have hne : (s.insertionSort zleProp).Pairwise (fun a b => a.2 ≠ b.2) :=
    List.pairwise_map.mp hnd
  refine (List.Pairwise.and hsorted hne).imp ?_
  intro a b hab
  obtain ⟨h1, h2⟩ := hab
  rcases h1 with h | ⟨he, _⟩
  · exact h
  · exact absurd he h2

theorem rank_take (l : List (String × Nat))
    (hp : l.Pairwise (fun a b => a.2 < b.2)) (k : Nat) (e : String × Nat)
    (he : e ∈ l.take k) :
    l.length - k ≤ l.countP (fun p => e.2 < p.2) := by
  have hsplit := List.take_append_drop k l
  have hp' : (l.take k ++ l.drop k).Pairwise (fun a b => a.2 < b.2) := by
    rw [hsplit]
    exact hp
  obtain ⟨-, -, hcross⟩ := List.pairwise_append.mp hp'
  have hall : (l.drop k).countP (fun p => e.2 < p.2) = (l.drop k).length :=
    List.countP_eq_length.mpr (fun b hb => by simpa using hcross e he b hb)
  have h1 : (l.take k ++ l.drop k).countP (fun p => e.2 < p.2)
      = l.countP (fun p => e.2 < p.2) := by rw [hsplit]
  rw [← h1, List.countP_append]
  rw [hall, List.length_drop]
  omega

theorem rank_drop (l : List (String × Nat))
    (hp : l.Pairwise (fun a b => a.2 < b.2)) (k : Nat) (e : String × Nat)
    (he : e ∈ l.drop k) :
    l.countP (fun p => e.2 < p.2) < l.length - k := by
  have hsplit := List.take_append_drop k l
  have hp' : (l.take k ++ l.drop k).Pairwise (fun a b => a.2 < b.2) := by
    rw [hsplit]
    exact hp
  obtain ⟨-, hpd, hcross⟩ := List.pairwise_append.mp hp'
  have hzero : (l.take k).countP (fun p => e.2 < p.2) = 0 :=
    List.countP_eq_zero.mpr (fun a ha => by
      have := hcross a ha e he
      simp
      omega)
  have hlt : (l.drop k).countP (fun p => e.2 < p.2) < (l.drop k).length := by
    have hne : (l.drop k).countP (fun p => e.2 < p.2) ≠ (l.drop k).length := by
      intro hcon
      have h2 := List.countP_eq_length.mp hcon e he
      simp at h2
    exact lt_of_le_of_ne (List.countP_le_length _) hne
  have h1 : (l.take k ++ l.drop k).countP (fun p => e.2 < p.2)
      = l.countP (fun p => e.2 < p.2) := by rw [hsplit]
  rw [← h1, List.countP_append, hzero, List.length_drop] at *
  omega

theorem zrange_length (s1 : ZSet) (k : Nat) (hk : k ≤ zcard s1) :
    (zrangeMembers s1 k).length = k := by
  rw [zrangeMembers, List.length_map]
  exact List.length_take_of_le
    (by rw [(List.perm_insertionSort zleProp s1).length_eq]; exact hk)

theorem goodZ_zrem (s1 : ZSet) (ms : List String) (u : Nat) (hG : GoodZ s1 u) :
    GoodZ (zrem s1 ms) u := by
  obtain ⟨hm, hs, hb⟩ := hG
  have hsub : List.Sublist (zrem s1 ms) s1 := List.filter_sublist s1
  exact ⟨hm.sublist (hsub.map _), hs.sublist (hsub.map _),
    fun p hp => hb p (hsub.subset hp)⟩

theorem members_zrem_subset (s1 : ZSet) (ms : List String) :
    ∀ x ∈ members (zrem s1 ms), x ∈ members s1 :=
  fun _ hx => ((List.filter_sublist s1).map (fun p => p.1)).subset hx

theorem filter_not_keys (A D : List (String × Nat))
    (hnd : ((A ++ D).map (fun p => p.1)).Nodup) :
    (A ++ D).filter (fun p => !((A.map (fun p => p.1)).contains p.1)) = D := by
  rw [List.filter_append]
  have h1 : A.filter (fun p => !((A.map (fun p => p.1)).contains p.1)) = [] := by
    rw [List.filter_eq_nil_iff]
    intro a ha
    simp
    exact ⟨a.2, ha⟩
  have h2 : D.filter (fun p => !((A.map (fun p => p.1)).contains p.1)) = D := by
    rw [List.filter_eq_self]
    intro a ha
    simp
    intro b hb
    rw [List.map_append, List.nodup_append] at hnd
    exact hnd.2.2 (List.mem_map_of_mem (fun p => p.1) hb)
      (List.mem_map_of_mem (fun p => p.1) ha)
  rw [h1, h2, List.nil_append]

theorem evict_facts (s1 : ZSet) (limit k : Nat) (hmn : (members s1).Nodup)
    (hsn : (s1.map (fun p => p.2)).Nodup) (hlt : limit < zcard s1)
    (hk : k = zcard s1 - limit) :
    zrangeMembers s1 k ≠ []
    ∧ (zrangeMembers s1 k).Nodup
    ∧ (zrangeMembers s1 k).Pairwise (fun a b => scoreIn s1 a < scoreIn s1 b)
    ∧ (∀ x, x ∈ zrangeMembers s1 k ↔ x ∈ members s1 ∧ limit ≤ newerCount s1 x)
    ∧ zcard (zrem s1 (zrangeMembers s1 k)) = limit
    ∧ (∀ x ∈ zrangeMembers s1 k, x ∉ members (zrem s1 (zrangeMembers s1 k))) := by
  have hperm : List.Perm (s1.insertionSort zleProp) s1 :=
    List.perm_insertionSort zleProp s1
  have hlen : (s1.insertionSort zleProp).length = zcard s1 := hperm.length_eq
  have hstrict := strict_sorted_sort s1 hsn
  have hmn' : (s1.map (fun p => p.1)).Nodup := hmn
  have hmemnd : ((s1.insertionSort zleProp).map (fun p => p.1)).Nodup :=
    ((hperm.map (fun p => p.1)).nodup_iff).mpr hmn'
  have hkcard : k ≤ zcard s1 := by omega
  have hscore : ∀ e ∈ s1.insertionSort zleProp, scoreIn s1 e.1 = e.2 :=
    fun e he => scoreIn_mem s1 e hmn (hperm.subset he)
  have hncl : ∀ x, newerCount s1 x
      = (s1.insertionSort zleProp).countP (fun p => scoreIn s1 x < p.2) := fun x => by
    rw [newerCount_eq_countP]
    exact (hperm.countP_eq _).symm
  have hlenold : (zrangeMembers s1 k).length = k := zrange_length s1 k hkcard
  refine ⟨?_, ?_, ?_, ?_, ?_, ?_⟩
  · intro hc
    rw [hc] at hlenold
    simp at hlenold
    omega
  · rw [zrangeMembers]
    exact hmemnd.sublist ((List.take_sublist k _).map _)
  · rw [zrangeMembers]
    have hA : ((s1.insertionSort zleProp).take k).Pairwise (fun a b => a.2 < b.2) :=
      hstrict.sublist (List.take_sublist k _)
    have hA' : ((s1.insertionSort zleProp).take k).Pairwise
        (fun a b => scoreIn s1 a.1 < scoreIn s1 b.1) := by
      refine hA.imp_of_mem ?_
      intro a b ha hb hab
      rw [hscore a ((List.take_sublist k _).subset ha),
          hscore b ((List.take_sublist k _).subset hb)]
      exact hab
    exact List.pairwise_map.mpr hA'
  · intro x
    constructor
    · intro hx
      rw [zrangeMembers] at hx
      obtain ⟨e, he, hex⟩ := List.mem_map.mp hx
      have hel : e ∈ s1.insertionSort zleProp := (List.take_sublist k _).subset he
      have hes : e ∈ s1 := hperm.subset hel
      constructor
      · rw [← hex]
        exact List.mem_map_of_mem _ hes
      · have hsc : scoreIn s1 x = e.2 := by
          rw [← hex]
          exact scoreIn_mem s1 e hmn hes
        rw [hncl x, hsc]
        have hrk := rank_take (s1.insertionSort zleProp) hstrict k e he
        rw [hlen] at hrk
        omega
    · rintro ⟨hxm, hxc⟩
      obtain ⟨e, hes, hex⟩ := List.mem_map.mp hxm
      have hel : e ∈ s1.insertionSort zleProp := hperm.mem_iff.mpr hes
      rw [← List.take_append_drop k (s1.insertionSort zleProp)] at hel
      rcases List.mem_append.mp hel with hA | hD
      · rw [zrangeMembers, ← hex]
        exact List.mem_map_of_mem _ hA
      · exfalso
        have hsc : scoreIn s1 x = e.2 := by
          rw [← hex]
          exact scoreIn_mem s1 e hmn hes
        have hrk := rank_drop (s1.insertionSort zleProp) hstrict k e hD
        rw [hlen] at hrk
        rw [hncl x, hsc] at hxc
        omega
  · have hpersist := (hperm.filter
      (fun p => !((zrangeMembers s1 k).contains p.1))).length_eq
    have hfilt := filter_not_keys ((s1.insertionSort zleProp).take k)
        ((s1.insertionSort zleProp).drop k)
        (by rw [List.take_append_drop]; exact hmemnd)
    rw [List.take_append_drop] at hfilt
    show (s1.filter (fun p => !((zrangeMembers s1 k).contains p.1))).length = limit
    rw [← hpersist]
    rw [show zrangeMembers s1 k
        = ((s1.insertionSort zleProp).take k).map (fun p => p.1) from rfl]
    rw [hfilt, List.length_drop, hlen]
    omega
  · intro x hx hc
    obtain ⟨p, hp, hpx⟩ := List.mem_map.mp hc
    have hmf := List.mem_filter.mp hp
    have h2 := hmf.2
    simp at h2
    exact h2 (hpx.symm ▸ hx)

/-! ### C1: one `add_ip` call, success path -/

theorem add_ip_snd_evict (s : ZSet) (ip : String) (limit t : Nat)
    (hb : limit < zcard (zadd s ip t))
    (hne : zrangeMembers (zadd s ip t) (zcard (zadd s ip t) - limit) ≠ []) :
    (add_ip s ip limit t).2
      = zrem (zadd s ip t)
          (zrangeMembers (zadd s ip t) (zcard (zadd s ip t) - limit)) := by
  simp only [add_ip]
  rw [if_pos hb, if_neg (by simpa using hne)]

theorem add_ip_fst_evict (s : ZSet) (ip : String) (limit t : Nat)
    (hb : limit < zcard (zadd s ip t))
    (hne : zrangeMembers (zadd s ip t) (zcard (zadd s ip t) - limit) ≠ []) :
    (add_ip s ip limit t).1.1
      = zrangeMembers (zadd s ip t) (zcard (zadd s ip t) - limit) := by
  simp only [add_ip]
  rw [if_pos hb, if_neg (by simpa using hne)]

theorem add_ip_snd_noevict (s : ZSet) (ip : String) (limit t : Nat)
    (hb : ¬ limit < zcard (zadd s ip t)) :
    (add_ip s ip limit t).2 = zadd s ip t := by
  simp only [add_ip]
  rw [if_neg hb]

theorem add_ip_fst_noevict (s : ZSet) (ip : String) (limit t : Nat)
    (hb : ¬ limit < zcard (zadd s ip t)) :
    (add_ip s ip limit t).1.1 = [] := by
  simp only [add_ip]
  rw [if_neg hb]

theorem add_ip_step (s : ZSet) (ip : String) (limit t : Nat) (hG : GoodZ s t) :
    GoodZ (add_ip s ip limit t).2 (t + 1)
    ∧ zcard (add_ip s ip limit t).2 = min (zcard (zadd s ip t)) limit
    ∧ (add_ip s ip limit t).1.1.Nodup
    ∧ (add_ip s ip limit t).1.1.Pairwise
        (fun a b => scoreIn (zadd s ip t) a < scoreIn (zadd s ip t) b)
    ∧ (∀ x, x ∈ (add_ip s ip limit t).1.1
        ↔ x ∈ members (zadd s ip t) ∧ limit ≤ newerCount (zadd s ip t) x)
    ∧ (∀ x ∈ (add_ip s ip limit t).1.1, x ∉ members (add_ip s ip limit t).2)
    ∧ (∀ x ∈ members (add_ip s ip limit t).2, x ∈ members (zadd s ip t))
    ∧ (zcard (add_ip s ip limit t).2 < limit
        → (add_ip s ip limit t).2 = zadd s ip t) := by
  have hG1 : GoodZ (zadd s ip t) (t + 1) := goodZ_zadd s ip t hG
  obtain ⟨hm1, hs1, hb1⟩ := hG1
  by_cases hb : limit < zcard (zadd s ip t)
  · obtain ⟨hne, hnd, hpw, hiff, hcard, hgone⟩ :=
      evict_facts (zadd s ip t) limit (zcard (zadd s ip t) - limit) hm1 hs1 hb rfl
    have hds := add_ip_snd_evict s ip limit t hb hne
    have hfs := add_ip_fst_evict s ip limit t hb hne
    refine ⟨?_, ?_, ?_, ?_, ?_, ?_, ?_, ?_⟩
    · rw [hds]
      exact goodZ_zrem _ _ _ ⟨hm1, hs1, hb1⟩
    · rw [hds, hcard]
      omega
    · rw [hfs]
      exact hnd
    · rw [hfs]
      exact hpw
    · rw [hfs]
      exact hiff
    · intro x hx
      rw [hfs] at hx
      rw [hds]
      exact hgone x hx
    · intro x hx
      rw [hds] at hx
      exact members_zrem_subset _ _ x hx
    · intro hcl
      rw [hds, hcard] at hcl
      exact absurd hcl (lt_irrefl _)
  · have hds := add_ip_snd_noevict s ip limit t hb
    have hfs := add_ip_fst_noevict s ip limit t hb
    refine ⟨?_, ?_, ?_, ?_, ?_, ?_, ?_, ?_⟩
    · rw [hds]
      exact ⟨hm1, hs1, hb1⟩
    · rw [hds]
      omega
    · rw [hfs]
      exact List.nodup_nil
    · rw [hfs]
      exact List.Pairwise.nil
    · intro x
      rw [hfs]
      simp only [List.not_mem_nil, false_iff]
      rintro ⟨hxm, hxc⟩
      have := newerCount_lt_card (zadd s ip t) x hm1 hxm
      omega
    · intro x hx
      rw [hfs] at hx
      exact absurd hx (List.not_mem_nil x)
    · intro x hx
      rw [hds] at hx
      exact hx
    · intro _
      exact hds

/-! ### C1: the whole run -/

theorem runAdds_snoc (limit : Nat) (l : List String) (a : String) (s : ZSet)
    (t : Nat) :
    runAdds limit (l ++ [a]) s t
      = ((add_ip (runAdds limit l s t).1 a limit (t + l.length)).2,
         (runAdds limit l s t).2
           ++ [(add_ip (runAdds limit l s t).1 a limit (t + l.length)).1.1]) := by
  induction l generalizing s t with
  | nil => simp [runAdds]
  | cons x xs ih =>
    simp only [List.cons_append, runAdds]
    simp only [List.append_eq]
    rw [ih]
    simp only [runAdds]
    rw [show t + (x :: xs).length = (t + 1) + xs.length by simp; omega]

theorem countDistinct_snoc (l : List String) (a : String) :
    countDistinct (l ++ [a])
      = if a ∈ l then countDistinct l else countDistinct l + 1 := by
  rw [countDistinct, countDistinct]
  have h : (l ++ [a]).toFinset = insert a l.toFinset := by
    ext x
    simp [List.toFinset_append, or_comm]
  rw [h]
  by_cases ha : a ∈ l
  · rw [if_pos ha, Finset.card_insert_of_mem (by simpa using ha)]
  · rw [if_neg ha, Finset.card_insert_of_not_mem (by simpa using ha)]

theorem runAdds_invariant (limit : Nat) (obs : List String) :
    GoodZ (runAdds limit obs [] 0).1 obs.length
    ∧ zcard (runAdds limit obs [] 0).1 = min (countDistinct obs) limit
    ∧ (∀ x ∈ members (runAdds limit obs [] 0).1, x ∈ obs)
    ∧ (zcard (runAdds limit obs [] 0).1 < limit
        → ∀ x ∈ obs, x ∈ members (runAdds limit obs [] 0).1) := by
  induction obs using List.reverseRecOn with
  | nil =>
    refine ⟨⟨by simp [members, runAdds], by simp [runAdds], by simp [runAdds]⟩,
      by simp [runAdds, zcard, countDistinct], ?_, ?_⟩
    · intro x hx
      simp [runAdds, members] at hx
    · intro _ x hx
      simp at hx
  | append_singleton l a ih =>
    obtain ⟨hG, hcard, hobs, hcompl⟩ := ih
    have hsnoc := runAdds_snoc limit l a [] 0
    have hS1 : (runAdds limit (l ++ [a]) [] 0).1
        = (add_ip (runAdds limit l [] 0).1 a limit l.length).2 := by
      rw [hsnoc, pair_fst, Nat.zero_add]
    obtain ⟨h1, h2, h3, h4, h5, h6, h7, h8⟩ :=
      add_ip_step (runAdds limit l [] 0).1 a limit l.length hG
    refine ⟨?_, ?_, ?_, ?_⟩
    · rw [hS1]
      have hlen : (l ++ [a]).length = l.length + 1 := by simp
      rw [hlen]
      exact h1
    · rw [hS1, h2, countDistinct_snoc, zcard_zadd]
      by_cases hmem : ((runAdds limit l [] 0).1.any (fun p => p.1 == a)) = true
      · rw [if_pos hmem]
        have haS : a ∈ members (runAdds limit l [] 0).1 :=
          (any_key_iff _ a).mp hmem
        rw [if_pos (hobs a haS), hcard]
        omega
      · rw [if_neg hmem]
        have haS : a ∉ members (runAdds limit l [] 0).1 :=
          fun hc => hmem ((any_key_iff _ a).mpr hc)
        by_cases hal : a ∈ l
        · rw [if_pos hal]
          have hnl : ¬ zcard (runAdds limit l [] 0).1 < limit :=
            fun hlim => haS (hcompl hlim a hal)
          omega
        · rw [if_neg hal]
          omega
    · intro x hx
      rw [hS1] at hx
      rcases mem_members_zadd _ _ _ x (h7 x hx) with h | h
      · exact List.mem_append.mpr (Or.inl (hobs x h))
      · exact List.mem_append.mpr (Or.inr (by simp [h]))
    · intro hlim x hx
      rw [hS1] at hlim ⊢
      have heq := h8 hlim
      rw [heq] at hlim ⊢
      have hcS : zcard (runAdds limit l [] 0).1 < limit := by
        rw [zcard_zadd] at hlim
        split at hlim <;> omega
      rcases List.mem_append.mp hx with h | h
      · exact mem_members_zadd_of_mem _ _ _ x (hcompl hcS x h)
      · simp at h
        rw [h]
        exact self_mem_members_zadd _ _ _

/-- **C1.** `Store.add_ip` slot semantics (store.py:49-71), for any sequence
of calls on one `(inbound, user)` slot with a fixed limit, modelling
`time.time()` as the strictly increasing call index: the run on
`pre ++ [ip]` is the run on `pre` followed by one more call; after each
call the slot's cardinality equals `min`(number of distinct addresses
observed, limit); the evicted list returned by the call holds exactly the
addresses of the slot (just after the `ZADD`) that have at least `limit`
strictly newer entries — i.e. those strictly older than the most recent
`limit` addresses — listed oldest-first without repetition; and every
returned address is removed from the slot. -/
theorem add_ip_slot_spec (limit : Nat) (pre : List String) (ip : String) :
    runAdds limit (pre ++ [ip]) [] 0
      = ((callResult limit pre ip).2,
         (runAdds limit pre [] 0).2 ++ [(callResult limit pre ip).1.1])
    ∧ zcard (slotAfter limit (pre ++ [ip]))
        = min (countDistinct (pre ++ [ip])) limit
    ∧ (callResult limit pre ip).1.1.Nodup
    ∧ (callResult limit pre ip).1.1.Pairwise
        (fun a b => scoreIn (zadd (slotAfter limit pre) ip pre.length) a
          < scoreIn (zadd (slotAfter limit pre) ip pre.length) b)
    ∧ (∀ x, x ∈ (callResult limit pre ip).1.1
        ↔ x ∈ members (zadd (slotAfter limit pre) ip pre.length)
          ∧ limit ≤ newerCount (zadd (slotAfter limit pre) ip pre.length) x)
    ∧ (∀ x ∈ (callResult limit pre ip).1.1,
        x ∉ members (slotAfter limit (pre ++ [ip]))) := by
  obtain ⟨hG, hcard, hobs, hcompl⟩ := runAdds_invariant limit pre
  obtain ⟨h1, h2, h3, h4, h5, h6, h7, h8⟩ :=
    add_ip_step (runAdds limit pre [] 0).1 ip limit pre.length hG
  have hsnoc := runAdds_snoc limit pre ip [] 0
  have hS1 : slotAfter limit (pre ++ [ip]) = (callResult limit pre ip).2 := by
    rw [slotAfter, hsnoc, pair_fst, callResult, slotAfter, Nat.zero_add]
  refine ⟨?_, ?_, h3, h4, h5, ?_⟩
  · rw [hsnoc, callResult, slotAfter, Nat.zero_add]
  · exact (runAdds_invariant limit (pre ++ [ip])).2.1
  · intro x hx
    rw [hS1]
    exact h6 x hx
